import Mathlib

/-!
Verification development for the File-Encrypter cryptographic core
(`src/crypto`): a shallow embedding of the AES / ChaCha20-Poly1305 / RSA
cipher classes, the streaming chunked file pipeline of `crypto_base.py`,
the algorithm registry of `crypto_factory.py`, and the key store of
`key_manager.py`.

Modelling conventions:
* byte strings are `List Nat` (each element intended `< 256`);
* the vetted external primitives from the `cryptography` library (the AES
  block permutation, the ChaCha20 keystream, the Poly1305 MAC, RSA-OAEP,
  Fernet, PBKDF2, `json.dumps/loads`) are parameters of the embedded
  functions, constrained by their documented contracts as hypotheses;
  everything the repository itself does (padding, chaining, chunking,
  framing, base64, field handling) is implemented concretely;
* Python exceptions become `Except Err`; a `None` return stays `Option`.
-/

set_option maxRecDepth 20000

abbrev Bytes := List Nat

/-- Python raise-sites of the crypto modules, one constructor per
distinguishable failure. `invalidTag` models the `ValueError` raised at the
`InvalidTag` handler of `chacha20.py` (distinct from the generic
`RuntimeError` re-raise); `invalidPadding` the `ValueError` of the PKCS7
unpadder. -/
inductive Err where
  | missingIV
  | keySizeMismatch
  | invalidIVLen
  | unsupportedMode
  | invalidPadding
  | invalidTag
  | runtimeError
  | dataTooLarge
  | invalidFileFormat
  | unsupportedAlgorithm
  | badKeySize
  deriving DecidableEq, Repr

deriving instance DecidableEq for Except

/-- Byte-wise XOR, truncating to the shorter operand (the semantics of the
stream-mode cipher updates). -/
def xorBytes (a b : Bytes) : Bytes := List.zipWith Nat.xor a b

/-- Fuel-indexed chunker (structural, so that the kernel can evaluate it). -/
def chunksOfAux (n : Nat) : Nat → Bytes → List Bytes
  | 0, _ => []
  | fuel+1, bs => if bs = [] then [] else bs.take n :: chunksOfAux n fuel (bs.drop n)

/-- Split a byte string into consecutive chunks of (at most) `n` bytes: the
`infile.read(chunk_size)` loop of `crypto_base.py` and the 16-byte block
splitting used by the block-mode ciphers. -/
def chunksOf (n : Nat) (bs : Bytes) : List Bytes := chunksOfAux n bs.length bs

/-- Big-endian byte serialization of a natural number on `l` bytes
(`int.to_bytes(l, byteorder='big')`). -/
def natToBytesBE : Nat → Nat → Bytes
  | 0, _ => []
  | l+1, n => natToBytesBE l (n / 256) ++ [n % 256]

/-- `int.from_bytes(bs, byteorder='big')`. -/
def bytesToNatBE (bs : Bytes) : Nat := bs.foldl (fun acc b => acc * 256 + b) 0

/-! ### PKCS7 padding (`cryptography.hazmat.primitives.padding.PKCS7(128)`) -/

/-- PKCS7 padding to the 16-byte AES block boundary, as applied by
`AESCipher.encrypt_data` in CBC mode. -/
def pkcs7_pad (bs : Bytes) : Bytes :=
  bs ++ List.replicate (16 - bs.length % 16) (16 - bs.length % 16)

/-- PKCS7 unpadding with full validation (nonempty, block-aligned, padding
byte in 1..16, all padding bytes equal), failing like the library unpadder
used by `AESCipher.decrypt_data`. -/
def pkcs7_unpad (bs : Bytes) : Except Err Bytes :=
  if bs = [] then .error .invalidPadding
  else if bs.length % 16 ≠ 0 then .error .invalidPadding
  else
    let k := bs.getLast?.getD 0
    if k = 0 then .error .invalidPadding
    else if 16 < k then .error .invalidPadding
    else if bs.length < k then .error .invalidPadding
    else if bs.drop (bs.length - k) ≠ List.replicate k k then .error .invalidPadding
    else .ok (bs.take (bs.length - k))

/-! ### Cipher-mode block chaining (library semantics of `modes.CBC/CFB/OFB/CTR`
on top of an abstract keyed block permutation `Ek`). -/

/-- CBC encryption over a block list: `c_i = Ek (p_i XOR c_(i-1))`. -/
def cbcEncBlocks (Ek : Bytes → Bytes) (prev : Bytes) : List Bytes → List Bytes
  | [] => []
  | p :: ps =>
      let c := Ek (xorBytes p prev)
      c :: cbcEncBlocks Ek c ps

/-- CBC decryption over a block list: `p_i = Dk c_i XOR c_(i-1)`. -/
def cbcDecBlocks (Dk : Bytes → Bytes) (prev : Bytes) : List Bytes → List Bytes
  | [] => []
  | c :: cs => xorBytes (Dk c) prev :: cbcDecBlocks Dk c cs

/-- Full-block CFB: `c_i = p_i XOR Ek c_(i-1)` (last block may be partial). -/
def cfbEncBlocks (Ek : Bytes → Bytes) (prev : Bytes) : List Bytes → List Bytes
  | [] => []
  | p :: ps =>
      let c := xorBytes p (Ek prev)
      c :: cfbEncBlocks Ek c ps

/-- CFB decryption: `p_i = c_i XOR Ek c_(i-1)`. -/
def cfbDecBlocks (Ek : Bytes → Bytes) (prev : Bytes) : List Bytes → List Bytes
  | [] => []
  | c :: cs => xorBytes c (Ek prev) :: cfbDecBlocks Ek c cs

/-- OFB: keystream `s_i = Ek s_(i-1)`, output `p_i XOR s_i`; encryption and
decryption are the same operation. -/
def ofbBlocks (Ek : Bytes → Bytes) (prev : Bytes) : List Bytes → List Bytes
  | [] => []
  | p :: ps =>
      let s := Ek prev
      xorBytes p s :: ofbBlocks Ek s ps

/-- The `i`-th CTR counter block: the 16-byte IV taken as a big-endian
counter, incremented mod 2^128. -/
def ctrBlock (iv : Bytes) (i : Nat) : Bytes :=
  natToBytesBE 16 ((bytesToNatBE iv + i) % 256 ^ 16)

/-- CTR keystream of `nblocks` blocks. -/
def ctrKeystream (Ek : Bytes → Bytes) (iv : Bytes) (nblocks : Nat) : Bytes :=
  ((List.range nblocks).map (fun i => Ek (ctrBlock iv i))).flatten

/-- CTR mode encryption (= decryption): XOR with the keystream truncated to
the data length. -/
def ctrXor (Ek : Bytes → Bytes) (iv : Bytes) (data : Bytes) : Bytes :=
  xorBytes data (ctrKeystream Ek iv ((data.length + 15) / 16))

/-! ### `aes.py`: class AESCipher

The keyed block permutation of the library (`algorithms.AES`) is the
parameter pair `Ek`/`Dk` (`Bytes → Bytes → Bytes`: key, 16-byte block to
block); everything else is the repository's logic. -/

/-- `AESCipher.__init__` parameter validation (key size then mode). -/
def AESCipher.init (key_size : Nat) (mode : String) : Except Err (Nat × String) :=
  if key_size ≠ 128 ∧ key_size ≠ 192 ∧ key_size ≠ 256 then .error .badKeySize
  else if mode ≠ ("CBC") ∧ mode ≠ ("CFB") ∧ mode ≠ ("OFB") ∧ mode ≠ ("CTR") then
    .error .unsupportedMode
  else .ok (key_size, mode)

/-- `AESCipher.encrypt_data`: missing-IV check, key-length check
(`_get_cipher`), the library's IV-length requirement, then PKCS7 + CBC for
mode CBC and plain stream transform for CFB/OFB/CTR. -/
def AESCipher.encrypt_data (E : Bytes → Bytes → Bytes) (key_size : Nat) (mode : String)
    (key iv data : Bytes) : Except Err Bytes :=
  if iv = [] then .error .missingIV
  else if key.length * 8 ≠ key_size then .error .keySizeMismatch
  else if iv.length ≠ 16 then .error .invalidIVLen
  else if mode = ("CBC") then
    .ok (cbcEncBlocks (E key) iv (chunksOf 16 (pkcs7_pad data))).flatten
  else if mode = ("CFB") then
    .ok (cfbEncBlocks (E key) iv (chunksOf 16 data)).flatten
  else if mode = ("OFB") then
    .ok (ofbBlocks (E key) iv (chunksOf 16 data)).flatten
  else if mode = ("CTR") then
    .ok (ctrXor (E key) iv data)
  else .error .unsupportedMode

/-- `AESCipher.decrypt_data`: the same guards, then CBC decrypt + unpad or
the stream-mode inverse. -/
def AESCipher.decrypt_data (E D : Bytes → Bytes → Bytes) (key_size : Nat) (mode : String)
    (key iv data : Bytes) : Except Err Bytes :=
  if iv = [] then .error .missingIV
  else if key.length * 8 ≠ key_size then .error .keySizeMismatch
  else if iv.length ≠ 16 then .error .invalidIVLen
  else if mode = ("CBC") then
    pkcs7_unpad (cbcDecBlocks (D key) iv (chunksOf 16 data)).flatten
  else if mode = ("CFB") then
    .ok (cfbDecBlocks (E key) iv (chunksOf 16 data)).flatten
  else if mode = ("OFB") then
    .ok (ofbBlocks (E key) iv (chunksOf 16 data)).flatten
  else if mode = ("CTR") then
    .ok (ctrXor (E key) iv data)
  else .error .unsupportedMode

/-! ### `chacha20.py`: class ChaCha20Cipher

`ChaCha20Poly1305.encrypt(nonce, data, ad)` is encrypt-then-MAC: the
keystream cipher `sEnc`/`sDec` and the tag function `macF` are parameters;
the token layout `nonce ++ ciphertext ++ tag` and the 12-byte split are the
repository's. The fresh 12-byte nonce drawn by `os.urandom` is an input. -/

/-- `ChaCha20Cipher.encrypt_data`. -/
def ChaCha20Cipher.encrypt_data (sEnc : Bytes → Bytes → Bytes → Bytes)
    (macF : Bytes → Bytes → Option Bytes → Bytes → Bytes)
    (key nonce : Bytes) (ad : Option Bytes) (data : Bytes) : Except Err Bytes :=
  if key.length ≠ 32 then .error .runtimeError
  else .ok (nonce ++ (sEnc key nonce data ++ macF key nonce ad (sEnc key nonce data)))

/-- `ChaCha20Cipher.decrypt_data`: split the first 12 bytes as nonce,
authenticate the rest (tag = last 16 bytes, recomputed MAC compared), and
only then decrypt.  A failed tag check raises the distinct
wrong-key-or-corrupted `ValueError` (`Err.invalidTag`). -/
def ChaCha20Cipher.decrypt_data (sDec : Bytes → Bytes → Bytes → Bytes)
    (macF : Bytes → Bytes → Option Bytes → Bytes → Bytes)
    (key : Bytes) (ad : Option Bytes) (data : Bytes) : Except Err Bytes :=
  if key.length ≠ 32 then .error .runtimeError
  else
    let nonce := data.take 12
    let rest := data.drop 12
    let body := rest.take (rest.length - 16)
    let tag := rest.drop (rest.length - 16)
    if macF key nonce ad body = tag then .ok (sDec key nonce body)
    else .error .invalidTag

/-! ### `rsa.py`: class RSACipher

`public_key.encrypt`/`private_key.decrypt` with OAEP(SHA-256) are the
parameters `oaepE`/`oaepD` (the key pair is baked in); the length gate, the
envelope container and its parsing are the repository's. -/

/-- `RSACipher.encrypt_data`: the OAEP size gate
(`key_size // 8 - 2*32 - 2`) then direct RSA encryption. -/
def RSACipher.encrypt_data (oaepE : Bytes → Bytes) (key_size : Nat)
    (data : Bytes) : Except Err Bytes :=
  if key_size / 8 - 2 * 32 - 2 < data.length then .error .dataTooLarge
  else .ok (oaepE data)

/-- `RSACipher.decrypt_data`: direct RSA decryption. -/
def RSACipher.decrypt_data (oaepD : Bytes → Bytes) (data : Bytes) : Except Err Bytes :=
  .ok (oaepD data)

/-! ### `crypto_base.py`: class CryptoBase (streaming file pipeline) -/

/-- Transform every chunk and concatenate, aborting the whole file on the
first chunk failure (the `try`/`except` around the read loop). -/
def mapConcat (f : Bytes → Except Err Bytes) : List Bytes → Except Err Bytes
  | [] => .ok []
  | c :: cs =>
      match f c with
      | .error e => .error e
      | .ok enc =>
          match mapConcat f cs with
          | .error e => .error e
          | .ok rest => .ok (enc ++ rest)

/-- `CryptoBase.encrypt_file`: read `chunk_size` bytes at a time, call
`encrypt_data` on each chunk with the *same* keyword arguments, write the
results in order. -/
def CryptoBase.encrypt_file (encOne : Bytes → Except Err Bytes) (chunk_size : Nat)
    (data : Bytes) : Except Err Bytes :=
  mapConcat encOne (chunksOf chunk_size data)

/-- `CryptoBase.decrypt_file`: the same loop with `decrypt_data`. -/
def CryptoBase.decrypt_file (decOne : Bytes → Except Err Bytes) (chunk_size : Nat)
    (data : Bytes) : Except Err Bytes :=
  mapConcat decOne (chunksOf chunk_size data)

/-- `RSACipher.encrypt_file` (hybrid envelope): AES-256-CBC-encrypt the file
with a fresh session key and IV (randomness passed in), RSA-wrap
`session_key ++ iv`, and emit
`[4-byte big-endian length][wrapped][AES ciphertext]`. -/
def RSACipher.encrypt_file (oaepE : Bytes → Bytes) (E : Bytes → Bytes → Bytes)
    (sessionKey iv : Bytes) (chunk_size : Nat) (data : Bytes) : Except Err Bytes :=
  match CryptoBase.encrypt_file
      (fun c => AESCipher.encrypt_data E 256 ("CBC") sessionKey iv c) chunk_size data with
  | .error e => .error e
  | .ok ct =>
      let wrapped := oaepE (sessionKey ++ iv)
      .ok (natToBytesBE 4 wrapped.length ++ wrapped ++ ct)

/-- `RSACipher.decrypt_file`: read the 4-byte length, the wrapped session
blob, RSA-decrypt it, split all-but-16 / last-16 into key and IV, rebuild an
AES cipher (constructor validation included) and stream-decrypt the rest. -/
def RSACipher.decrypt_file (oaepD : Bytes → Bytes) (E D : Bytes → Bytes → Bytes)
    (chunk_size : Nat) (file : Bytes) : Except Err Bytes :=
  let key_length_bytes := file.take 4
  if key_length_bytes.length ≠ 4 then .error .invalidFileFormat
  else
    let key_length := bytesToNatBE key_length_bytes
    let encrypted_key := (file.drop 4).take key_length
    if encrypted_key.length ≠ key_length then .error .invalidFileFormat
    else
      let blob := oaepD encrypted_key
      let aes_key := blob.take (blob.length - 16)
      let aes_iv := blob.drop (blob.length - 16)
      match AESCipher.init (aes_key.length * 8) ("CBC") with
      | .error e => .error e
      | .ok _ =>
          CryptoBase.decrypt_file
            (fun c => AESCipher.decrypt_data E D (aes_key.length * 8) ("CBC") aes_key aes_iv c)
            chunk_size ((file.drop 4).drop key_length)

/-! ### `crypto_factory.py`: class CryptoFactory -/

/-- The registry built by `_register_algorithms`, in registration order;
each entry holds the result of invoking the registered constructor lambda. -/
def CryptoFactory.algorithms : List (String × Except Err (String × Nat × String)) :=
  [ ("AES-128-CBC", (AESCipher.init 128 ("CBC")).map (fun p => ("AES", p))),
    ("AES-192-CBC", (AESCipher.init 192 ("CBC")).map (fun p => ("AES", p))),
    ("AES-256-CBC", (AESCipher.init 256 ("CBC")).map (fun p => ("AES", p))),
    ("AES-128-CFB", (AESCipher.init 128 ("CFB")).map (fun p => ("AES", p))),
    ("AES-192-CFB", (AESCipher.init 192 ("CFB")).map (fun p => ("AES", p))),
    ("AES-256-CFB", (AESCipher.init 256 ("CFB")).map (fun p => ("AES", p))),
    ("AES-128-CTR", (AESCipher.init 128 ("CTR")).map (fun p => ("AES", p))),
    ("AES-192-CTR", (AESCipher.init 192 ("CTR")).map (fun p => ("AES", p))),
    ("AES-256-CTR", (AESCipher.init 256 ("CTR")).map (fun p => ("AES", p))),
    ("RSA-1024", .ok (("RSA"), 1024, (""))),
    ("RSA-2048", .ok (("RSA"), 2048, (""))),
    ("RSA-4096", .ok (("RSA"), 4096, (""))),
    ("ChaCha20-Poly1305", .ok (("ChaCha20"), 256, (""))) ]

/-- Association-list lookup with Python `dict` semantics. -/
def dlookup {α : Type} (k : String) : List (String × α) → Option α
  | [] => none
  | (k', v) :: rest => if k' = k then some v else dlookup k rest

/-- `CryptoFactory.create_algorithm`: unknown names raise the
unsupported-algorithm `ValueError`. -/
def CryptoFactory.create_algorithm (name : String) : Except Err (String × Nat × String) :=
  match dlookup name CryptoFactory.algorithms with
  | none => .error .unsupportedAlgorithm
  | some mk => mk

/-- `CryptoFactory.get_all_algorithms`. -/
def CryptoFactory.get_all_algorithms : List String :=
  CryptoFactory.algorithms.map Prod.fst

/-! ### base64 (`base64.b64encode` / `b64decode`), on ASCII byte strings -/

/-- Code point of the `i`-th character of the standard base64 alphabet. -/
def b64chr (s : Nat) : Nat :=
  if s < 26 then 65 + s
  else if s < 52 then 71 + s
  else if s < 62 then s - 4
  else if s = 62 then 43
  else 47

/-- Inverse alphabet lookup. -/
def b64val (c : Nat) : Option Nat :=
  if 65 ≤ c ∧ c ≤ 90 then some (c - 65)
  else if 97 ≤ c ∧ c ≤ 122 then some (c - 71)
  else if 48 ≤ c ∧ c ≤ 57 then some (c + 4)
  else if c = 43 then some 62
  else if c = 47 then some 63
  else none

/-- `base64.b64encode`: groups of 3 bytes to 4 alphabet bytes, with `=`
(61) padding for 1- or 2-byte tails. -/
def b64encode : Bytes → Bytes
  | a :: b :: c :: rest =>
      b64chr (a / 4) :: b64chr (a % 4 * 16 + b / 16) ::
      b64chr (b % 16 * 4 + c / 64) :: b64chr (c % 64) :: b64encode rest
  | [a, b] => [b64chr (a / 4), b64chr (a % 4 * 16 + b / 16), b64chr (b % 16 * 4), 61]
  | [a] => [b64chr (a / 4), b64chr (a % 4 * 16), 61, 61]
  | [] => []

/-- `base64.b64decode` (raising on malformed input, modelled as `none`). -/
def b64decode : Bytes → Option Bytes
  | [] => some []
  | c1 :: c2 :: c3 :: c4 :: rest =>
      match b64val c1, b64val c2 with
      | some s1, some s2 =>
          if c3 = 61 then
            if c4 = 61 ∧ rest = [] then some [s1 * 4 + s2 / 16] else none
          else
            match b64val c3 with
            | some s3 =>
                if c4 = 61 then
                  if rest = [] then some [s1 * 4 + s2 / 16, s2 % 16 * 16 + s3 / 4] else none
                else
                  match b64val c4, b64decode rest with
                  | some s4, some r =>
                      some ((s1 * 4 + s2 / 16) :: (s2 % 16 * 16 + s3 / 4) :: (s3 % 4 * 64 + s4) :: r)
                  | _, _ => none
            | none => none
      | _, _ => none
  | _ => none

/-! ### `key_manager.py`: class KeyManager

The key store (directory of `<name>.key` files) is an association list from
file name to file content.  `PBKDF2HMAC` + `urlsafe_b64encode` is the
abstract `kdf`; `Fernet.encrypt/decrypt` is the abstract `fEnc`/`fDec`
(decryption returning `none` on `InvalidToken`); `json.dumps/loads` is the
abstract `jsonE`/`jsonD` on structured records.  Python `str` values are
modelled as their code-point byte lists; field names are Lean `String`s. -/

/-- Code points of a Lean string (model of a Python `str` value). -/
def strB (s : String) : Bytes := s.data.map Char.toNat

/-- Values of the caller-supplied `key_data` dictionary. -/
inductive KVal where
  | s (v : Bytes)
  | n (v : Int)
  | boolv (v : Bool)
  | null
  | bytes (v : Bytes)
  | obj
  deriving DecidableEq, Repr

/-- JSON-serializable values of the stored record. -/
inductive SVal where
  | s (v : Bytes)
  | n (v : Int)
  | boolv (v : Bool)
  | null
  deriving DecidableEq, Repr

/-- Values of the dictionary returned by `load_key` (strings or decoded
byte fields). -/
inductive RVal where
  | s (v : Bytes)
  | n (v : Int)
  | boolv (v : Bool)
  | null
  | bytes (v : Bytes)
  deriving DecidableEq, Repr

abbrev Record := List (String × SVal)
abbrev Store := List (String × Bytes)

/-- Python `dict` insertion: overwrite in place, else append. -/
def dinsert {α : Type} : List (String × α) → String → α → List (String × α)
  | [], k, v => [(k, v)]
  | (k', v') :: rest, k, v =>
      if k' = k then (k, v) :: rest else (k', v') :: dinsert rest k v

/-- `key_name.replace(" ", "_").replace("/", "_").replace("\\", "_")` — for
the single-character patterns this is a character map. -/
def sanitize (name : String) : String :=
  String.mk (name.data.map (fun c => if c = ' ' ∨ c = '/' ∨ c = '\\' then '_' else c))

/-- Python's `key.replace("_b64", "")` on a character list: drop every
(left-to-right, non-overlapping) occurrence of `_b64`. -/
def dropB64Marks : List Char → List Char
  | '_' :: 'b' :: '6' :: '4' :: rest => dropB64Marks rest
  | c :: rest => c :: dropB64Marks rest
  | [] => []

/-- `key.replace("_b64", "")`. -/
def replB64 (k : String) : String := String.mk (dropB64Marks k.data)

/-- `key.endswith("_b64")`. -/
def endsB64 (k : String) : Bool := ("_b64").data.isSuffixOf k.data

/-- The 10-byte `ENCRYPTED:` marker. -/
def magic : Bytes := strB ("ENCRYPTED:")

/-- The byte-field names that `load_key` always tries to base64-decode. -/
def byteFieldNames : List String := [("key"), ("iv"), ("private_pem"), ("public_pem")]

/-- `key_data.get(k, default)` restricted to JSON-serializable values;
non-serializable values (raw bytes / objects) fall back to the default
placeholder (such an entry is overwritten by the serialization loop
whenever it matters). -/
def getSerializable (k : String) (d : List (String × KVal)) (dflt : SVal) : SVal :=
  match dlookup k d with
  | some (.s v) => .s v
  | some (.n v) => .n v
  | some (.boolv v) => .boolv v
  | some .null => .null
  | _ => dflt

/-- The `for key, value in key_data.items()` serialization loop of
`save_key`: keep JSON-serializable values, base64 raw bytes, skip objects. -/
def serializeItems (acc : Record) : List (String × KVal) → Record
  | [] => acc
  | (k, v) :: rest =>
      serializeItems
        (match v with
         | .s w => dinsert acc k (.s w)
         | .n w => dinsert acc k (.n w)
         | .boolv w => dinsert acc k (.boolv w)
         | .null => dinsert acc k .null
         | .bytes w => dinsert acc k (.s (b64encode w))
         | .obj => acc)
        rest

/-- The per-value rule of the serialization loop: what a single `key_data`
value becomes in the stored record (`none` for skipped Python objects). -/
def serializeVal : KVal → Option SVal
  | .s w => some (.s w)
  | .n w => some (.n w)
  | .boolv w => some (.boolv w)
  | .null => some .null
  | .bytes w => some (.s (b64encode w))
  | .obj => none

/-- The record `save_key` serializes: the three header fields then the
processed `key_data` items (dict overwrite semantics). -/
def saveRecord (keyData : List (String × KVal)) (key_name : String) (now : Bytes) : Record :=
  serializeItems
    [(("name"), .s (strB (sanitize key_name))),
     (("algorithm"), getSerializable ("algorithm") keyData (.s (strB ("unknown")))),
     (("created_at"), getSerializable ("created_at") keyData (.s now))]
    keyData

/-- `KeyManager.save_key`: sanitize the name, serialize the record, and
store it under `<name>.key` — wrapped as `ENCRYPTED: ‖ salt ‖ Fernet token`
when a password is given, as plain JSON text otherwise. -/
def KeyManager.save_key (jsonE : Record → Bytes) (kdf : String → Bytes → Bytes)
    (fEnc : Bytes → Bytes → Bytes) (salt now : Bytes)
    (store : Store) (keyData : List (String × KVal)) (key_name : String)
    (password : Option String) : Store :=
  let name' := sanitize key_name
  let record := saveRecord keyData key_name now
  let content :=
    match password with
    | some pw => magic ++ salt ++ fEnc (kdf pw salt) (jsonE record)
    | none => jsonE record
  dinsert store (name' ++ (".key")) content

/-- One step of the base64 post-processing loop of `load_key`: keys ending
in `_b64` or named in `byteFieldNames` are copied and additionally decoded
into the `_b64`-stripped key; a decode failure keeps only the original
value. -/
def postStep (acc : List (String × RVal)) (k : String) (v : SVal) : List (String × RVal) :=
  if endsB64 k = true ∨ k ∈ byteFieldNames then
    match v with
    | .s w =>
        match b64decode w with
        | some bs => dinsert (dinsert acc k (.s w)) (replB64 k) (.bytes bs)
        | none => dinsert acc k (.s w)
    | .n w => dinsert acc k (.n w)
    | .boolv w => dinsert acc k (.boolv w)
    | .null => dinsert acc k .null
  else
    match v with
    | .s w => dinsert acc k (.s w)
    | .n w => dinsert acc k (.n w)
    | .boolv w => dinsert acc k (.boolv w)
    | .null => dinsert acc k .null

/-- The whole post-processing loop (`result_data` accumulation). -/
def postprocess (acc : List (String × RVal)) : Record → List (String × RVal)
  | [] => acc
  | (k, v) :: rest => postprocess (postStep acc k v) rest

/-- The branch of `load_key` that turns file bytes into a structured
record: check the `ENCRYPTED:` marker (salt = bytes 10..26, token =
bytes 26..), unwrap with the password-derived key, parse JSON.  Missing or
wrong password and token or JSON corruption all yield `none`. -/
def KeyManager.loadParse (jsonD : Bytes → Option Record) (kdf : String → Bytes → Bytes)
    (fDec : Bytes → Bytes → Option Bytes) (file_data : Bytes)
    (password : Option String) : Option Record :=
  if file_data.take 10 = magic then
    match password with
    | none => none
    | some pw =>
        let salt := (file_data.drop 10).take 16
        let encrypted_data := file_data.drop 26
        match fDec (kdf pw salt) encrypted_data with
        | none => none
        | some dec => jsonD dec
  else jsonD file_data

/-- `KeyManager.load_key`: look the file up, parse it (`loadParse`), then
post-process base64 fields.  Every failure — missing file, missing or wrong
password, token or JSON corruption — returns `none`. -/
def KeyManager.load_key (jsonD : Bytes → Option Record) (kdf : String → Bytes → Bytes)
    (fDec : Bytes → Bytes → Option Bytes) (store : Store) (key_name : String)
    (password : Option String) : Option (List (String × RVal)) :=
  match dlookup (key_name ++ (".key")) store with
  | none => none
  | some file_data =>
      match KeyManager.loadParse jsonD kdf fDec file_data password with
      | none => none
      | some key_data => some (postprocess [] key_data)

/-- `KeyManager.delete_key`: missing file reports failure (`False`),
otherwise remove it and report `True`. -/
def KeyManager.delete_key (store : Store) (key_name : String) : Bool × Store :=
  match dlookup (key_name ++ (".key")) store with
  | none => (false, store)
  | some _ => (true, store.filter (fun kv => kv.1 != key_name ++ (".key")))

/-! ### C4: single-bit corruption of an AEAD token -/

/-- Flip bit `j` of byte `i`. -/
def flipBit (i j : Nat) (bs : Bytes) : Bytes :=
  bs.set i (bs.getD i 0 ^^^ 1 <<< j)

/-! ### Theorems -/

theorem xorBytes_length (a b : Bytes) : (xorBytes a b).length = min a.length b.length := by
  simp [xorBytes]

/-- XOR with the same (long enough) keystream twice gives the data back. -/
theorem xorBytes_cancel : ∀ (d ks : Bytes), d.length ≤ ks.length →
    xorBytes (xorBytes d ks) ks = d := by
  intro d
  induction d with
  | nil => intro ks _; rfl
  | cons x xs ih =>
      intro ks hks
      cases ks with
      | nil => simp at hks
      | cons y ys =>
          show ((x ^^^ y) ^^^ y) :: xorBytes (xorBytes xs ys) ys = x :: xs
          rw [Nat.xor_assoc, Nat.xor_self, Nat.xor_zero, ih ys (by simp at hks; omega)]

theorem chunksOfAux_congr (n : Nat) (hn : 0 < n) :
    ∀ f₁ f₂ bs, bs.length ≤ f₁ → bs.length ≤ f₂ →
      chunksOfAux n f₁ bs = chunksOfAux n f₂ bs := by
  intro f₁
  induction f₁ with
  | zero =>
      intro f₂ bs h₁ _
      have hbs : bs = [] := by
        cases bs with
        | nil => rfl
        | cons a t => simp at h₁
      subst hbs
      cases f₂ <;> simp [chunksOfAux]
  | succ f ih =>
      intro f₂ bs h₁ h₂
      cases f₂ with
      | zero =>
          have hbs : bs = [] := by
            cases bs with
            | nil => rfl
            | cons a t => simp at h₂
          subst hbs
          simp [chunksOfAux]
      | succ g =>
          by_cases hbs : bs = []
          · subst hbs; simp [chunksOfAux]
          · simp only [chunksOfAux, if_neg hbs]
            have hlen : (bs.drop n).length ≤ f := by
              have := List.length_drop n bs
              have hpos : 0 < bs.length := List.length_pos.mpr hbs
              omega
            have hlen' : (bs.drop n).length ≤ g := by
              have := List.length_drop n bs
              have hpos : 0 < bs.length := List.length_pos.mpr hbs
              omega
            rw [ih g (bs.drop n) hlen hlen']

theorem chunksOf_nil (n : Nat) : chunksOf n [] = [] := rfl

theorem chunksOf_cons (n : Nat) (hn : 0 < n) (bs : Bytes) (hbs : bs ≠ []) :
    chunksOf n bs = bs.take n :: chunksOf n (bs.drop n) := by
  unfold chunksOf
  cases hL : bs.length with
  | zero =>
      exact absurd (List.length_eq_zero.mp hL) hbs
  | succ k =>
      simp only [chunksOfAux, if_neg hbs]
      congr 1
      have h1 : (bs.drop n).length ≤ k := by
        have := List.length_drop n bs
        omega
      exact chunksOfAux_congr n hn k (bs.drop n).length (bs.drop n) h1 le_rfl

/-- All chunks are nonempty and at most `n` long; all but the last are
exactly `n` long; concatenating them gives back the input. -/
theorem chunksOf_shape (n : Nat) (hn : 0 < n) :
    ∀ fuel bs, bs.length ≤ fuel →
      (∀ c ∈ chunksOf n bs, 0 < c.length ∧ c.length ≤ n) ∧
      (∀ c ∈ (chunksOf n bs).dropLast, c.length = n) ∧
      (chunksOf n bs).flatten = bs := by
  intro fuel
  induction fuel with
  | zero =>
      intro bs h
      have hbs : bs = [] := by
        cases bs with
        | nil => rfl
        | cons a t => simp at h
      subst hbs
      simp [chunksOf_nil]
  | succ f ih =>
      intro bs h
      by_cases hbs : bs = []
      · subst hbs; simp [chunksOf_nil]
      · rw [chunksOf_cons n hn bs hbs]
        have hdrop : (bs.drop n).length ≤ f := by
          have := List.length_drop n bs
          have hpos : 0 < bs.length := List.length_pos.mpr hbs
          omega
        obtain ⟨ih1, ih2, ih3⟩ := ih (bs.drop n) hdrop
        have hpos : 0 < bs.length := List.length_pos.mpr hbs
        refine ⟨?_, ?_, ?_⟩
        · intro c hc
          rcases List.mem_cons.mp hc with rfl | hc'
          · constructor
            · simp only [List.length_take]; omega
            · simp only [List.length_take]; omega
          · exact ih1 c hc'
        · intro c hc
          by_cases hrest : chunksOf n (bs.drop n) = []
          · rw [hrest] at hc; simp at hc
          · rw [List.dropLast_cons_of_ne_nil hrest] at hc
            rcases List.mem_cons.mp hc with rfl | hc'
            · have hdropne : bs.drop n ≠ [] := by
                intro hx
                rw [hx] at hrest
                exact hrest (chunksOf_nil n)
              have : 0 < (bs.drop n).length := List.length_pos.mpr hdropne
              have := List.length_drop n bs
              simp only [List.length_take]
              omega
            · exact ih2 c hc'
        · simp only [List.flatten_cons, ih3, List.take_append_drop]

theorem chunksOf_flatten_eq (n : Nat) (hn : 0 < n) (bs : Bytes) :
    (chunksOf n bs).flatten = bs :=
  (chunksOf_shape n hn bs.length bs le_rfl).2.2

/-- If `n` divides the length, every chunk is a full block. -/
theorem chunksOf_full (n : Nat) (hn : 0 < n) :
    ∀ fuel bs, bs.length ≤ fuel → n ∣ bs.length →
      ∀ c ∈ chunksOf n bs, c.length = n := by
  intro fuel
  induction fuel with
  | zero =>
      intro bs h _ c hc
      have hbs : bs = [] := by
        cases bs with
        | nil => rfl
        | cons a t => simp at h
      subst hbs
      simp [chunksOf_nil] at hc
  | succ f ih =>
      intro bs h hdvd c hc
      by_cases hbs : bs = []
      · subst hbs; simp [chunksOf_nil] at hc
      · rw [chunksOf_cons n hn bs hbs] at hc
        have hpos : 0 < bs.length := List.length_pos.mpr hbs
        have hge : n ≤ bs.length := Nat.le_of_dvd hpos hdvd
        rcases List.mem_cons.mp hc with rfl | hc'
        · simp only [List.length_take]; omega
        · have hdrop : (bs.drop n).length ≤ f := by
            have := List.length_drop n bs
            omega
          have hdvd' : n ∣ (bs.drop n).length := by
            rw [List.length_drop]
            exact (Nat.dvd_sub' hdvd dvd_rfl)
          exact ih (bs.drop n) hdrop hdvd' c hc'

/-- Inverse of `join` on a chunk-shaped list: all blocks nonempty, at most
`n` long, and all but the last exactly `n`. -/
theorem chunksOf_of_flatten (n : Nat) (hn : 0 < n) :
    ∀ bss : List Bytes,
      (∀ b ∈ bss.dropLast, b.length = n) →
      (∀ b ∈ bss, 0 < b.length ∧ b.length ≤ n) →
      chunksOf n bss.flatten = bss := by
  intro bss
  induction bss with
  | nil => intro _ _; simp [chunksOf_nil]
  | cons b rest ih =>
      intro hfull hshape
      cases rest with
      | nil =>
          simp only [List.flatten_cons, List.flatten_nil, List.append_nil]
          obtain ⟨hb0, hbn⟩ := hshape b (by simp)
          have hbne : b ≠ [] := by
            intro hx; rw [hx] at hb0; simp at hb0
          rw [chunksOf_cons n hn b hbne]
          rw [List.take_of_length_le hbn, List.drop_eq_nil_of_le hbn, chunksOf_nil]
      | cons c rest' =>
          have hb : b.length = n := by
            apply hfull
            simp [List.dropLast_cons₂]
          have hflat : (b :: c :: rest').flatten = b ++ (c :: rest').flatten := rfl
          rw [hflat]
          have hne : b ++ (c :: rest').flatten ≠ [] := by
            intro hx
            have := congrArg List.length hx
            simp only [List.length_append, List.length_nil] at this
            omega
          rw [chunksOf_cons n hn _ hne]
          rw [List.take_left' hb, List.drop_left' hb]
          congr 1
          apply ih
          · intro x hx
            apply hfull
            rw [List.dropLast_cons₂]
            exact List.mem_cons_of_mem b hx
          · intro x hx
            exact hshape x (List.mem_cons_of_mem b hx)

theorem natToBytesBE_length (l n : Nat) : (natToBytesBE l n).length = l := by
  induction l generalizing n with
  | zero => rfl
  | succ k ih => simp [natToBytesBE, ih]

theorem bytesToNatBE_append_one (xs : Bytes) (b : Nat) :
    bytesToNatBE (xs ++ [b]) = bytesToNatBE xs * 256 + b := by
  simp [bytesToNatBE, List.foldl_append]

theorem bytesToNatBE_natToBytesBE (l n : Nat) (h : n < 256 ^ l) :
    bytesToNatBE (natToBytesBE l n) = n := by
  induction l generalizing n with
  | zero =>
      simp only [Nat.pow_zero, Nat.lt_one_iff] at h
      simp [natToBytesBE, bytesToNatBE, h]
  | succ k ih =>
      simp only [natToBytesBE, bytesToNatBE_append_one]
      have hdiv : n / 256 < 256 ^ k := by
        rw [Nat.div_lt_iff_lt_mul (by norm_num)]
        calc n < 256 ^ (k+1) := h
        _ = 256 ^ k * 256 := by ring
      rw [ih (n / 256) hdiv]
      omega

theorem pkcs7_pad_length (bs : Bytes) :
    (pkcs7_pad bs).length = bs.length + (16 - bs.length % 16) := by
  simp [pkcs7_pad]

theorem pkcs7_pad_length_dvd (bs : Bytes) : 16 ∣ (pkcs7_pad bs).length := by
  rw [pkcs7_pad_length]
  have := Nat.mod_lt bs.length (show 0 < 16 by norm_num)
  have hmod := Nat.div_add_mod bs.length 16
  exact ⟨bs.length / 16 + 1, by omega⟩

theorem pkcs7_unpad_pad (bs : Bytes) : pkcs7_unpad (pkcs7_pad bs) = .ok bs := by
  have hk1 : 1 ≤ 16 - bs.length % 16 := by
    have := Nat.mod_lt bs.length (show 0 < 16 by norm_num)
    omega
  have hk16 : 16 - bs.length % 16 ≤ 16 := by omega
  set k := 16 - bs.length % 16 with hk
  have hrep_ne : List.replicate k k ≠ ([] : Bytes) := by
    intro hx
    have := congrArg List.length hx
    simp at this
    omega
  have hne : pkcs7_pad bs ≠ [] := by
    intro hx
    unfold pkcs7_pad at hx
    rcases List.append_eq_nil.mp hx with ⟨_, h2⟩
    exact hrep_ne h2
  have hlen : (pkcs7_pad bs).length = bs.length + k := pkcs7_pad_length bs
  have hdvd : (pkcs7_pad bs).length % 16 = 0 := by
    obtain ⟨c, hc⟩ := pkcs7_pad_length_dvd bs
    omega
  have hlast : (pkcs7_pad bs).getLast? = some k := by
    unfold pkcs7_pad
    rw [List.getLast?_append]
    have hrep : List.replicate k k = List.replicate (k-1) k ++ [k] := by
      have hkpos : k - 1 + 1 = k := by omega
      have h := List.replicate_succ' (k-1) k
      rw [hkpos] at h
      exact h
    rw [hrep, List.getLast?_concat]
    rfl
  have hdrop : (pkcs7_pad bs).drop ((pkcs7_pad bs).length - k) = List.replicate k k := by
    rw [hlen]
    have : bs.length + k - k = bs.length := by omega
    rw [this]
    unfold pkcs7_pad
    exact List.drop_left bs _
  have htake : (pkcs7_pad bs).take ((pkcs7_pad bs).length - k) = bs := by
    rw [hlen]
    have : bs.length + k - k = bs.length := by omega
    rw [this]
    unfold pkcs7_pad
    exact List.take_left bs _
  unfold pkcs7_unpad
  rw [if_neg hne]
  simp only [hlast, Option.getD_some, hdrop, htake, hdvd]
  rw [if_neg (by omega)]
  rw [if_neg (by omega), if_neg (by omega), if_neg (by omega : ¬ (pkcs7_pad bs).length < k)]
  rw [if_neg (by simp)]

theorem cbcEncBlocks_block_length (Ek : Bytes → Bytes)
    (hElen : ∀ b, b.length = 16 → (Ek b).length = 16) :
    ∀ (ps : List Bytes) (prev : Bytes), prev.length = 16 →
      (∀ p ∈ ps, p.length = 16) →
      ∀ c ∈ cbcEncBlocks Ek prev ps, c.length = 16 := by
  intro ps
  induction ps with
  | nil => intro prev _ _ c hc; simp [cbcEncBlocks] at hc
  | cons p ps ih =>
      intro prev hprev hps c hc
      have hp : p.length = 16 := hps p (by simp)
      have hxlen : (xorBytes p prev).length = 16 := by
        simp [xorBytes_length, hp, hprev]
      have hclen : (Ek (xorBytes p prev)).length = 16 := hElen _ hxlen
      simp only [cbcEncBlocks] at hc
      rcases List.mem_cons.mp hc with rfl | hc'
      · exact hclen
      · exact ih _ hclen (fun q hq => hps q (List.mem_cons_of_mem p hq)) c hc'

theorem cbc_roundtrip (Ek Dk : Bytes → Bytes)
    (hED : ∀ b, b.length = 16 → Dk (Ek b) = b)
    (hElen : ∀ b, b.length = 16 → (Ek b).length = 16) :
    ∀ (ps : List Bytes) (prev : Bytes), prev.length = 16 →
      (∀ p ∈ ps, p.length = 16) →
      cbcDecBlocks Dk prev (cbcEncBlocks Ek prev ps) = ps := by
  intro ps
  induction ps with
  | nil => intro prev _ _; rfl
  | cons p ps ih =>
      intro prev hprev hps
      have hp : p.length = 16 := hps p (by simp)
      have hxlen : (xorBytes p prev).length = 16 := by
        simp [xorBytes_length, hp, hprev]
      simp only [cbcEncBlocks, cbcDecBlocks]
      congr 1
      · rw [hED _ hxlen]
        exact xorBytes_cancel p prev (by omega)
      · exact ih _ (hElen _ hxlen) (fun q hq => hps q (List.mem_cons_of_mem p hq))

theorem cfbEncBlocks_shape (Ek : Bytes → Bytes)
    (hElen : ∀ b, b.length = 16 → (Ek b).length = 16) :
    ∀ (ps : List Bytes) (prev : Bytes), prev.length = 16 →
      (∀ p ∈ ps.dropLast, p.length = 16) →
      (∀ p ∈ ps, 0 < p.length ∧ p.length ≤ 16) →
      (∀ c ∈ (cfbEncBlocks Ek prev ps).dropLast, c.length = 16) ∧
      (∀ c ∈ cfbEncBlocks Ek prev ps, 0 < c.length ∧ c.length ≤ 16) := by
  intro ps
  induction ps with
  | nil => intro prev _ _ _; simp [cfbEncBlocks]
  | cons p ps ih =>
      intro prev hprev hfull hshape
      have hp : 0 < p.length ∧ p.length ≤ 16 := hshape p (by simp)
      have hks : (Ek prev).length = 16 := hElen _ hprev
      have hclen : (xorBytes p (Ek prev)).length = p.length := by
        rw [xorBytes_length, hks]; omega
      cases ps with
      | nil =>
          have henc1 : cfbEncBlocks Ek prev [p] = [xorBytes p (Ek prev)] := rfl
          rw [henc1]
          refine ⟨by intro c hc; simp at hc, ?_⟩
          intro c hc
          simp only [List.mem_singleton] at hc
          subst hc
          rw [hclen]; exact hp
      | cons q ps' =>
          have hpfull : p.length = 16 := hfull p (by simp [List.dropLast_cons₂])
          have hc16 : (xorBytes p (Ek prev)).length = 16 := by rw [hclen, hpfull]
          obtain ⟨ih1, ih2⟩ := ih (xorBytes p (Ek prev)) hc16
            (by intro x hx; apply hfull; rw [List.dropLast_cons₂]; exact List.mem_cons_of_mem p hx)
            (by intro x hx; exact hshape x (List.mem_cons_of_mem p hx))
          have henc : cfbEncBlocks Ek prev (p :: q :: ps')
              = xorBytes p (Ek prev) :: cfbEncBlocks Ek (xorBytes p (Ek prev)) (q :: ps') := rfl
          have hrest_ne : cfbEncBlocks Ek (xorBytes p (Ek prev)) (q :: ps') ≠ [] := by
            simp [cfbEncBlocks]
          rw [henc]
          constructor
          · intro c hc
            rw [List.dropLast_cons_of_ne_nil hrest_ne] at hc
            rcases List.mem_cons.mp hc with rfl | hc'
            · exact hc16
            · exact ih1 c hc'
          · intro c hc
            rcases List.mem_cons.mp hc with rfl | hc'
            · rw [hclen]; exact hp
            · exact ih2 c hc'

theorem cfb_roundtrip (Ek : Bytes → Bytes)
    (hElen : ∀ b, b.length = 16 → (Ek b).length = 16) :
    ∀ (ps : List Bytes) (prev : Bytes), prev.length = 16 →
      (∀ p ∈ ps.dropLast, p.length = 16) →
      (∀ p ∈ ps, 0 < p.length ∧ p.length ≤ 16) →
      cfbDecBlocks Ek prev (cfbEncBlocks Ek prev ps) = ps := by
  intro ps
  induction ps with
  | nil => intro prev _ _ _; rfl
  | cons p ps ih =>
      intro prev hprev hfull hshape
      have hp : 0 < p.length ∧ p.length ≤ 16 := hshape p (by simp)
      have hks : (Ek prev).length = 16 := hElen _ hprev
      simp only [cfbEncBlocks, cfbDecBlocks]
      congr 1
      · exact xorBytes_cancel p (Ek prev) (by omega)
      · cases ps with
        | nil => rfl
        | cons q ps' =>
            have hpfull : p.length = 16 := hfull p (by simp [List.dropLast_cons₂])
            have hc16 : (xorBytes p (Ek prev)).length = 16 := by
              rw [xorBytes_length, hks, hpfull]; simp
            exact ih (xorBytes p (Ek prev)) hc16
              (by intro x hx; apply hfull; rw [List.dropLast_cons₂]; exact List.mem_cons_of_mem p hx)
              (by intro x hx; exact hshape x (List.mem_cons_of_mem p hx))

theorem ofb_involutive (Ek : Bytes → Bytes)
    (hElen : ∀ b, b.length = 16 → (Ek b).length = 16) :
    ∀ (ps : List Bytes) (prev : Bytes), prev.length = 16 →
      (∀ p ∈ ps, p.length ≤ 16) →
      ofbBlocks Ek prev (ofbBlocks Ek prev ps) = ps := by
  intro ps
  induction ps with
  | nil => intro prev _ _; rfl
  | cons p ps ih =>
      intro prev hprev hshape
      have hp : p.length ≤ 16 := hshape p (by simp)
      have hks : (Ek prev).length = 16 := hElen _ hprev
      simp only [ofbBlocks]
      congr 1
      · exact xorBytes_cancel p (Ek prev) (by omega)
      · exact ih (Ek prev) hks (fun q hq => hshape q (List.mem_cons_of_mem p hq))

theorem b64val_b64chr (s : Nat) (hs : s < 64) : b64val (b64chr s) = some s := by
  unfold b64chr b64val
  split_ifs <;> first | (exact congrArg some (by omega)) | omega

theorem b64chr_ne_eq (s : Nat) (hs : s < 64) : b64chr s ≠ 61 := by
  unfold b64chr
  split_ifs <;> omega

theorem b64decode_b64encode : ∀ bs : Bytes, (∀ x ∈ bs, x < 256) →
    b64decode (b64encode bs) = some bs
  | [], _ => rfl
  | [a], h => by
      have ha : a < 256 := h a (by simp)
      have h1 := b64val_b64chr (a / 4) (by omega)
      have h2 := b64val_b64chr (a % 4 * 16) (by omega)
      simp [b64encode, b64decode, h1, h2]
      omega
  | [a, b], h => by
      have ha : a < 256 := h a (by simp)
      have hb : b < 256 := h b (by simp)
      have h1 := b64val_b64chr (a / 4) (by omega)
      have h2 := b64val_b64chr (a % 4 * 16 + b / 16) (by omega)
      have h3 := b64val_b64chr (b % 16 * 4) (by omega)
      have hne3 := b64chr_ne_eq (b % 16 * 4) (by omega)
      simp [b64encode, b64decode, h1, h2, h3, hne3]
      omega
  | a :: b :: c :: rest, h => by
      have ha : a < 256 := h a (by simp)
      have hb : b < 256 := h b (by simp)
      have hc : c < 256 := h c (by simp)
      have ih := b64decode_b64encode rest (fun x hx => h x (by simp [hx]))
      have h1 := b64val_b64chr (a / 4) (by omega)
      have h2 := b64val_b64chr (a % 4 * 16 + b / 16) (by omega)
      have h3 := b64val_b64chr (b % 16 * 4 + c / 64) (by omega)
      have h4 := b64val_b64chr (c % 64) (by omega)
      have hne3 := b64chr_ne_eq (b % 16 * 4 + c / 64) (by omega)
      have hne4 := b64chr_ne_eq (c % 64) (by omega)
      cases rest with
      | nil =>
          simp [b64encode, b64decode, h1, h2, h3, h4, hne3, hne4]
          omega
      | cons d rest' =>
          have henc : b64encode (a :: b :: c :: d :: rest')
              = b64chr (a / 4) :: b64chr (a % 4 * 16 + b / 16) ::
                b64chr (b % 16 * 4 + c / 64) :: b64chr (c % 64) :: b64encode (d :: rest') := rfl
          rw [henc]
          simp only [b64decode, h1, h2, h3, h4, hne3, hne4, if_neg, ih]
          simp
          omega

theorem dlookup_dinsert_self {α : Type} (r : List (String × α)) (k : String) (v : α) :
    dlookup k (dinsert r k v) = some v := by
  induction r with
  | nil => simp [dinsert, dlookup]
  | cons kv rest ih =>
      obtain ⟨k', v'⟩ := kv
      by_cases h : k' = k
      · simp [dinsert, if_pos h, dlookup]
      · simp [dinsert, if_neg h, dlookup, if_neg h, ih]

theorem dlookup_dinsert_ne {α : Type} (r : List (String × α)) (k k' : String) (v : α)
    (h : k' ≠ k) : dlookup k (dinsert r k' v) = dlookup k r := by
  induction r with
  | nil => simp [dinsert, dlookup, if_neg h]
  | cons kv rest ih =>
      obtain ⟨k'', v''⟩ := kv
      by_cases h2 : k'' = k'
      · subst h2
        simp [dinsert, dlookup, if_neg h, ih]
      · simp only [dinsert, if_neg h2, dlookup]
        by_cases h3 : k'' = k
        · simp [if_pos h3]
        · simp [if_neg h3, ih]

theorem mem_dinsert {α : Type} (r : List (String × α)) (k : String) (v : α) :
    ∀ kv ∈ dinsert r k v, kv = (k, v) ∨ kv ∈ r := by
  induction r with
  | nil => intro kv hkv; simp [dinsert] at hkv; left; exact hkv
  | cons kv₀ rest ih =>
      obtain ⟨k', v'⟩ := kv₀
      intro kv hkv
      by_cases h : k' = k
      · simp only [dinsert, if_pos h] at hkv
        rcases List.mem_cons.mp hkv with rfl | hkv'
        · left; rfl
        · right; exact List.mem_cons_of_mem _ hkv'
      · simp only [dinsert, if_neg h] at hkv
        rcases List.mem_cons.mp hkv with rfl | hkv'
        · right; simp
        · rcases ih kv hkv' with h1 | h2
          · left; exact h1
          · right; exact List.mem_cons_of_mem _ h2

/-! ### Key-manager record lemmas -/

theorem keys_dinsert_cases {α : Type} (r : List (String × α)) (k : String) (v : α) :
    ∀ x ∈ (dinsert r k v).map Prod.fst, x = k ∨ x ∈ r.map Prod.fst := by
  intro x hx
  obtain ⟨kv, hkv, rfl⟩ := List.mem_map.mp hx
  rcases mem_dinsert r k v kv hkv with rfl | h
  · left; rfl
  · right; exact List.mem_map_of_mem Prod.fst h

theorem nodup_keys_dinsert {α : Type} (r : List (String × α)) (k : String) (v : α)
    (h : (r.map Prod.fst).Nodup) : ((dinsert r k v).map Prod.fst).Nodup := by
  induction r with
  | nil => simp [dinsert]
  | cons kv rest ih =>
      obtain ⟨k', v'⟩ := kv
      simp only [List.map_cons, List.nodup_cons] at h
      obtain ⟨hk', hrest⟩ := h
      by_cases hkk : k' = k
      · simp only [dinsert, if_pos hkk, List.map_cons, List.nodup_cons]
        exact ⟨hkk ▸ hk', hrest⟩
      · simp only [dinsert, if_neg hkk, List.map_cons, List.nodup_cons]
        refine ⟨?_, ih hrest⟩
        intro hx
        rcases keys_dinsert_cases rest k v k' hx with rfl | h2
        · exact hkk rfl
        · exact hk' h2

theorem dlookup_postStep_ne (acc : List (String × RVal)) (k f : String) (v : SVal)
    (h1 : k ≠ f) (h2 : replB64 k ≠ f) :
    dlookup f (postStep acc k v) = dlookup f acc := by
  unfold postStep
  split_ifs with hbranch
  · cases v with
    | s w =>
        cases hdec : b64decode w with
        | none => simp only [hdec]; exact dlookup_dinsert_ne acc f k _ h1
        | some bs =>
            simp only [hdec]
            rw [dlookup_dinsert_ne _ f (replB64 k) _ h2]
            exact dlookup_dinsert_ne acc f k _ h1
    | n w => exact dlookup_dinsert_ne acc f k _ h1
    | boolv w => exact dlookup_dinsert_ne acc f k _ h1
    | null => exact dlookup_dinsert_ne acc f k _ h1
  · cases v with
    | s w => exact dlookup_dinsert_ne acc f k _ h1
    | n w => exact dlookup_dinsert_ne acc f k _ h1
    | boolv w => exact dlookup_dinsert_ne acc f k _ h1
    | null => exact dlookup_dinsert_ne acc f k _ h1

theorem dlookup_postprocess_absent (f : String) :
    ∀ (rec : Record) (acc : List (String × RVal)),
      (∀ kv ∈ rec, kv.1 ≠ f ∧ replB64 kv.1 ≠ f) →
      dlookup f (postprocess acc rec) = dlookup f acc := by
  intro rec
  induction rec with
  | nil => intro acc _; rfl
  | cons kv rest ih =>
      obtain ⟨k, v⟩ := kv
      intro acc habs
      obtain ⟨h1, h2⟩ := habs (k, v) (by simp)
      simp only [postprocess]
      rw [ih (postStep acc k v) (fun x hx => habs x (List.mem_cons_of_mem _ hx))]
      exact dlookup_postStep_ne acc k f v h1 h2

/-- A post-processing step on an entry other than `f` keeps `f ↦ bytes w`,
provided any `_b64` companion of `f` holds the base64 string of the same
bytes `w` (it then merely re-decodes `w` into `f`). -/
theorem dlookup_postStep_stable (acc : List (String × RVal)) (k f : String) (v : SVal)
    (w : Bytes) (hw : ∀ x ∈ w, x < 256) (hk : k ≠ f)
    (hv : replB64 k = f → v = .s (b64encode w))
    (hacc : dlookup f acc = some (.bytes w)) :
    dlookup f (postStep acc k v) = some (.bytes w) := by
  by_cases hr : replB64 k = f
  · have hveq := hv hr
    subst hveq
    unfold postStep
    split_ifs with hbranch
    · show dlookup f (match b64decode (b64encode w) with
          | some bs => dinsert (dinsert acc k (RVal.s (b64encode w))) (replB64 k) (RVal.bytes bs)
          | none => dinsert acc k (RVal.s (b64encode w))) = some (RVal.bytes w)
      rw [b64decode_b64encode w hw, hr]
      exact dlookup_dinsert_self _ f (RVal.bytes w)
    · show dlookup f (dinsert acc k (RVal.s (b64encode w))) = some (RVal.bytes w)
      rw [dlookup_dinsert_ne acc f k _ hk]
      exact hacc
  · rw [dlookup_postStep_ne acc k f v hk hr]
    exact hacc

/-- The post-processing loop keeps `f ↦ bytes w` across a record whose
remaining entries never rebind `f` itself and whose `_b64` companions of `f`
all hold the base64 string of the same bytes `w`. -/
theorem dlookup_postprocess_stable (f : String) (w : Bytes) (hw : ∀ x ∈ w, x < 256) :
    ∀ (rec : Record) (acc : List (String × RVal)),
      dlookup f acc = some (.bytes w) →
      (∀ kv ∈ rec, kv.1 ≠ f) →
      (∀ kv ∈ rec, replB64 kv.1 = f → kv.2 = SVal.s (b64encode w)) →
      dlookup f (postprocess acc rec) = some (.bytes w) := by
  intro rec
  induction rec with
  | nil => intro acc hacc _ _; exact hacc
  | cons kv rest ih =>
      obtain ⟨k, v⟩ := kv
      intro acc hacc hne hcomp
      simp only [postprocess]
      refine ih (postStep acc k v) ?_ (fun x hx => hne x (List.mem_cons_of_mem _ hx))
        (fun x hx => hcomp x (List.mem_cons_of_mem _ hx))
      exact dlookup_postStep_stable acc k f v w hw (hne (k, v) (by simp))
        (fun hr => hcomp (k, v) (by simp) hr) hacc

/-- The heart of the save/load byte-field round trip: if the record binds
the byte field `f` to the base64 string of `w` and every other entry naming
`f` under the `_b64` renaming (such as the `key_b64`/`iv_b64` companions
emitted by `generate_key`) holds the base64 string of the same bytes, the
post-processing loop leaves `f ↦ bytes w`. -/
theorem postprocess_recovers (f : String) (w : Bytes)
    (hf : f ∈ byteFieldNames) (hrepl : replB64 f = f) (hw : ∀ x ∈ w, x < 256) :
    ∀ (rec : Record) (acc : List (String × RVal)),
      (rec.map Prod.fst).Nodup →
      dlookup f rec = some (.s (b64encode w)) →
      (∀ kv ∈ rec, kv.1 ≠ f → replB64 kv.1 = f → kv.2 = SVal.s (b64encode w)) →
      dlookup f (postprocess acc rec) = some (.bytes w) := by
  intro rec
  induction rec with
  | nil => intro acc _ hlook _; simp [dlookup] at hlook
  | cons kv rest ih =>
      obtain ⟨k, v⟩ := kv
      intro acc hnodup hlook hshadow
      simp only [List.map_cons, List.nodup_cons] at hnodup
      obtain ⟨hknotin, hnodup'⟩ := hnodup
      by_cases hkf : k = f
      · subst hkf
        simp only [dlookup, if_pos rfl] at hlook
        injection hlook with hv
        subst hv
        simp only [postprocess]
        have hne : ∀ x ∈ rest, x.1 ≠ k := by
          intro x hx hxk
          exact hknotin (hxk ▸ List.mem_map_of_mem Prod.fst hx)
        refine dlookup_postprocess_stable k w hw rest _ ?_ hne
          (fun x hx hr => hshadow x (List.mem_cons_of_mem _ hx) (hne x hx) hr)
        unfold postStep
        rw [if_pos (Or.inr hf)]
        simp only [b64decode_b64encode w hw, hrepl]
        exact dlookup_dinsert_self _ k (RVal.bytes w)
      · simp only [dlookup, if_neg hkf] at hlook
        simp only [postprocess]
        exact ih (postStep acc k v) hnodup' hlook
          (fun x hx => hshadow x (List.mem_cons_of_mem _ hx))

theorem serializeItems_lookup_absent (f : String) :
    ∀ (keyData : List (String × KVal)) (acc : Record),
      f ∉ keyData.map Prod.fst →
      dlookup f (serializeItems acc keyData) = dlookup f acc := by
  intro keyData
  induction keyData with
  | nil => intro acc _; rfl
  | cons kv rest ih =>
      obtain ⟨k, v⟩ := kv
      intro acc habs
      simp only [List.map_cons, List.mem_cons] at habs
      push_neg at habs
      obtain ⟨hkf, hrest⟩ := habs
      simp only [serializeItems]
      rw [ih _ hrest]
      have hne : k ≠ f := fun hx => hkf hx.symm
      cases v with
      | s w => exact dlookup_dinsert_ne acc f k _ hne
      | n w => exact dlookup_dinsert_ne acc f k _ hne
      | boolv w => exact dlookup_dinsert_ne acc f k _ hne
      | null => exact dlookup_dinsert_ne acc f k _ hne
      | bytes w => exact dlookup_dinsert_ne acc f k _ hne
      | obj => rfl

theorem serializeItems_lookup (f : String) (w : Bytes) :
    ∀ (keyData : List (String × KVal)) (acc : Record),
      (keyData.map Prod.fst).Nodup →
      dlookup f keyData = some (.bytes w) →
      dlookup f (serializeItems acc keyData) = some (.s (b64encode w)) := by
  intro keyData
  induction keyData with
  | nil => intro acc _ hlook; simp [dlookup] at hlook
  | cons kv rest ih =>
      obtain ⟨k, v⟩ := kv
      intro acc hnodup hlook
      simp only [List.map_cons, List.nodup_cons] at hnodup
      obtain ⟨hknotin, hnodup'⟩ := hnodup
      by_cases hkf : k = f
      · subst hkf
        simp only [dlookup, if_pos rfl] at hlook
        injection hlook with hv
        subst hv
        simp only [serializeItems]
        rw [serializeItems_lookup_absent k rest _ hknotin]
        exact dlookup_dinsert_self acc k _
      · simp only [dlookup, if_neg hkf] at hlook
        simp only [serializeItems]
        cases v with
        | s w' => exact ih _ hnodup' hlook
        | n w' => exact ih _ hnodup' hlook
        | boolv w' => exact ih _ hnodup' hlook
        | null => exact ih _ hnodup' hlook
        | bytes w' => exact ih _ hnodup' hlook
        | obj => exact ih _ hnodup' hlook

theorem serializeItems_keys :
    ∀ (keyData : List (String × KVal)) (acc : Record),
      ∀ kv ∈ serializeItems acc keyData,
        kv.1 ∈ acc.map Prod.fst ∨ kv.1 ∈ keyData.map Prod.fst := by
  intro keyData
  induction keyData with
  | nil =>
      intro acc kv hkv
      left
      exact List.mem_map_of_mem Prod.fst hkv
  | cons kv₀ rest ih =>
      obtain ⟨k, v⟩ := kv₀
      intro acc kv hkv
      simp only [serializeItems] at hkv
      have step : ∀ (acc' : List (String × SVal)),
          (∀ x ∈ acc', x.1 ∈ acc.map Prod.fst ∨ x.1 = k) →
          kv ∈ serializeItems acc' rest →
          kv.1 ∈ acc.map Prod.fst ∨ kv.1 ∈ ((k, v) :: rest).map Prod.fst := by
        intro acc' hacc' hmem
        rcases ih acc' kv hmem with hin | hin
        · obtain ⟨x, hx, hx1⟩ := List.mem_map.mp hin
          rcases hacc' x hx with h | h
          · left; rw [← hx1]; exact h
          · right; rw [← hx1, h]; simp
        · right; simp [hin]
      cases v with
      | s w =>
          refine step _ ?_ hkv
          intro x hx
          rcases mem_dinsert acc k _ x hx with rfl | h
          · right; rfl
          · left; exact List.mem_map_of_mem Prod.fst h
      | n w =>
          refine step _ ?_ hkv
          intro x hx
          rcases mem_dinsert acc k _ x hx with rfl | h
          · right; rfl
          · left; exact List.mem_map_of_mem Prod.fst h
      | boolv w =>
          refine step _ ?_ hkv
          intro x hx
          rcases mem_dinsert acc k _ x hx with rfl | h
          · right; rfl
          · left; exact List.mem_map_of_mem Prod.fst h
      | null =>
          refine step _ ?_ hkv
          intro x hx
          rcases mem_dinsert acc k _ x hx with rfl | h
          · right; rfl
          · left; exact List.mem_map_of_mem Prod.fst h
      | bytes w =>
          refine step _ ?_ hkv
          intro x hx
          rcases mem_dinsert acc k _ x hx with rfl | h
          · right; rfl
          · left; exact List.mem_map_of_mem Prod.fst h
      | obj =>
          refine step _ ?_ hkv
          intro x hx
          left; exact List.mem_map_of_mem Prod.fst hx

/-- Every entry of the serialized record comes either from the accumulator
or from some `key_data` item, carrying that item's serialized value. -/
theorem serializeItems_mem_src :
    ∀ (keyData : List (String × KVal)) (acc : Record) (kv : String × SVal),
      kv ∈ serializeItems acc keyData →
      kv ∈ acc ∨ ∃ v, (kv.1, v) ∈ keyData ∧ serializeVal v = some kv.2 := by
  intro keyData
  induction keyData with
  | nil =>
      intro acc kv hkv
      left
      exact hkv
  | cons kv₀ rest ih =>
      obtain ⟨k, v⟩ := kv₀
      intro acc kv hkv
      simp only [serializeItems] at hkv
      cases v with
      | s w =>
          rcases ih _ kv hkv with hin | ⟨v', hv', hs⟩
          · rcases mem_dinsert acc k _ kv hin with rfl | h
            · exact Or.inr ⟨KVal.s w, List.mem_cons_self _ _, rfl⟩
            · exact Or.inl h
          · exact Or.inr ⟨v', List.mem_cons_of_mem _ hv', hs⟩
      | n w =>
          rcases ih _ kv hkv with hin | ⟨v', hv', hs⟩
          · rcases mem_dinsert acc k _ kv hin with rfl | h
            · exact Or.inr ⟨KVal.n w, List.mem_cons_self _ _, rfl⟩
            · exact Or.inl h
          · exact Or.inr ⟨v', List.mem_cons_of_mem _ hv', hs⟩
      | boolv w =>
          rcases ih _ kv hkv with hin | ⟨v', hv', hs⟩
          · rcases mem_dinsert acc k _ kv hin with rfl | h
            · exact Or.inr ⟨KVal.boolv w, List.mem_cons_self _ _, rfl⟩
            · exact Or.inl h
          · exact Or.inr ⟨v', List.mem_cons_of_mem _ hv', hs⟩
      | null =>
          rcases ih _ kv hkv with hin | ⟨v', hv', hs⟩
          · rcases mem_dinsert acc k _ kv hin with rfl | h
            · exact Or.inr ⟨KVal.null, List.mem_cons_self _ _, rfl⟩
            · exact Or.inl h
          · exact Or.inr ⟨v', List.mem_cons_of_mem _ hv', hs⟩
      | bytes w =>
          rcases ih _ kv hkv with hin | ⟨v', hv', hs⟩
          · rcases mem_dinsert acc k _ kv hin with rfl | h
            · exact Or.inr ⟨KVal.bytes w, List.mem_cons_self _ _, rfl⟩
            · exact Or.inl h
          · exact Or.inr ⟨v', List.mem_cons_of_mem _ hv', hs⟩
      | obj =>
          rcases ih _ kv hkv with hin | ⟨v', hv', hs⟩
          · exact Or.inl hin
          · exact Or.inr ⟨v', List.mem_cons_of_mem _ hv', hs⟩

theorem serializeItems_nodup :
    ∀ (keyData : List (String × KVal)) (acc : Record),
      (acc.map Prod.fst).Nodup →
      ((serializeItems acc keyData).map Prod.fst).Nodup := by
  intro keyData
  induction keyData with
  | nil => intro acc h; exact h
  | cons kv rest ih =>
      obtain ⟨k, v⟩ := kv
      intro acc h
      simp only [serializeItems]
      cases v with
      | s w => exact ih _ (nodup_keys_dinsert acc k _ h)
      | n w => exact ih _ (nodup_keys_dinsert acc k _ h)
      | boolv w => exact ih _ (nodup_keys_dinsert acc k _ h)
      | null => exact ih _ (nodup_keys_dinsert acc k _ h)
      | bytes w => exact ih _ (nodup_keys_dinsert acc k _ h)
      | obj => exact ih _ h

/-! ### Single-call round trips of `encrypt_data`/`decrypt_data` -/

theorem flatten_length_of_uniform (n : Nat) :
    ∀ l : List Bytes, (∀ b ∈ l, b.length = n) → l.flatten.length = n * l.length := by
  intro l
  induction l with
  | nil => intro _; simp
  | cons b rest ih =>
      intro h
      simp only [List.flatten_cons, List.length_append, List.length_cons]
      rw [h b (by simp), ih (fun x hx => h x (List.mem_cons_of_mem b hx))]
      ring

theorem ctrKeystream_length (Ek : Bytes → Bytes)
    (hElen : ∀ b, b.length = 16 → (Ek b).length = 16) (iv : Bytes) (nblocks : Nat) :
    (ctrKeystream Ek iv nblocks).length = 16 * nblocks := by
  unfold ctrKeystream
  rw [flatten_length_of_uniform 16]
  · simp
  · intro b hb
    obtain ⟨i, _, rfl⟩ := List.mem_map.mp hb
    exact hElen _ (natToBytesBE_length 16 _)

theorem ctrXor_involutive (Ek : Bytes → Bytes)
    (hElen : ∀ b, b.length = 16 → (Ek b).length = 16) (iv data : Bytes) :
    ctrXor Ek iv (ctrXor Ek iv data) = data := by
  unfold ctrXor
  have hks : (ctrKeystream Ek iv ((data.length + 15) / 16)).length = 16 * ((data.length + 15) / 16) :=
    ctrKeystream_length Ek hElen iv _
  have hge : data.length ≤ (ctrKeystream Ek iv ((data.length + 15) / 16)).length := by
    rw [hks]; omega
  have hlen1 : (xorBytes data (ctrKeystream Ek iv ((data.length + 15) / 16))).length = data.length := by
    rw [xorBytes_length]; omega
  rw [hlen1]
  exact xorBytes_cancel data _ hge

theorem aes_cbc_data_roundtrip (E D : Bytes → Bytes → Bytes)
    (hED : ∀ k b, b.length = 16 → D k (E k b) = b)
    (hElen : ∀ k b, b.length = 16 → (E k b).length = 16)
    (key_size : Nat) (key iv data : Bytes)
    (hkey : key.length * 8 = key_size) (hiv : iv.length = 16) :
    (AESCipher.encrypt_data E key_size ("CBC") key iv data).bind
      (AESCipher.decrypt_data E D key_size ("CBC") key iv) = .ok data := by
  have hivne : iv ≠ [] := by
    intro hx; rw [hx] at hiv; simp at hiv
  unfold AESCipher.encrypt_data
  rw [if_neg hivne, if_neg (by omega), if_neg (by omega), if_pos rfl]
  simp only [Except.bind]
  unfold AESCipher.decrypt_data
  rw [if_neg hivne, if_neg (by omega), if_neg (by omega), if_pos rfl]
  have hblocks : ∀ c ∈ chunksOf 16 (pkcs7_pad data), c.length = 16 :=
    chunksOf_full 16 (by norm_num) (pkcs7_pad data).length _ le_rfl (pkcs7_pad_length_dvd data)
  have hencblocks : ∀ c ∈ cbcEncBlocks (E key) iv (chunksOf 16 (pkcs7_pad data)), c.length = 16 :=
    cbcEncBlocks_block_length (E key) (hElen key) _ iv hiv hblocks
  rw [chunksOf_of_flatten 16 (by norm_num) _
    (fun b hb => hencblocks b (List.mem_of_mem_dropLast hb))
    (fun b hb => by rw [hencblocks b hb]; omega)]
  rw [cbc_roundtrip (E key) (D key) (hED key) (hElen key) _ iv hiv hblocks]
  rw [chunksOf_flatten_eq 16 (by norm_num)]
  exact pkcs7_unpad_pad data

theorem aes_cfb_data_roundtrip (E : Bytes → Bytes → Bytes)
    (hElen : ∀ k b, b.length = 16 → (E k b).length = 16)
    (D : Bytes → Bytes → Bytes)
    (key_size : Nat) (key iv data : Bytes)
    (hkey : key.length * 8 = key_size) (hiv : iv.length = 16) :
    (AESCipher.encrypt_data E key_size ("CFB") key iv data).bind
      (AESCipher.decrypt_data E D key_size ("CFB") key iv) = .ok data := by
  have hivne : iv ≠ [] := by
    intro hx; rw [hx] at hiv; simp at hiv
  unfold AESCipher.encrypt_data
  rw [if_neg hivne, if_neg (by omega), if_neg (by omega), if_neg (by simp), if_pos rfl]
  simp only [Except.bind]
  unfold AESCipher.decrypt_data
  rw [if_neg hivne, if_neg (by omega), if_neg (by omega), if_neg (by simp), if_pos rfl]
  obtain ⟨hshape, hfull, _⟩ := chunksOf_shape 16 (by norm_num) data.length data le_rfl
  obtain ⟨hedrop, heshape⟩ := cfbEncBlocks_shape (E key) (hElen key) _ iv hiv hfull hshape
  rw [chunksOf_of_flatten 16 (by norm_num) _ hedrop heshape]
  rw [cfb_roundtrip (E key) (hElen key) _ iv hiv hfull hshape]
  rw [chunksOf_flatten_eq 16 (by norm_num)]

theorem aes_ctr_data_roundtrip (E : Bytes → Bytes → Bytes)
    (hElen : ∀ k b, b.length = 16 → (E k b).length = 16)
    (D : Bytes → Bytes → Bytes)
    (key_size : Nat) (key iv data : Bytes)
    (hkey : key.length * 8 = key_size) (hiv : iv.length = 16) :
    (AESCipher.encrypt_data E key_size ("CTR") key iv data).bind
      (AESCipher.decrypt_data E D key_size ("CTR") key iv) = .ok data := by
  have hivne : iv ≠ [] := by
    intro hx; rw [hx] at hiv; simp at hiv
  unfold AESCipher.encrypt_data
  rw [if_neg hivne, if_neg (by omega), if_neg (by omega), if_neg (by simp), if_neg (by simp),
    if_neg (by simp), if_pos rfl]
  simp only [Except.bind]
  unfold AESCipher.decrypt_data
  rw [if_neg hivne, if_neg (by omega), if_neg (by omega), if_neg (by simp), if_neg (by simp),
    if_neg (by simp), if_pos rfl]
  rw [ctrXor_involutive (E key) (hElen key) iv data]

theorem chacha_data_roundtrip (sEnc sDec : Bytes → Bytes → Bytes → Bytes)
    (macF : Bytes → Bytes → Option Bytes → Bytes → Bytes)
    (hsRound : ∀ k n p, sDec k n (sEnc k n p) = p)
    (hsLen : ∀ k n p, (sEnc k n p).length = p.length)
    (hmacLen : ∀ k n a c, (macF k n a c).length = 16)
    (key nonce : Bytes) (ad : Option Bytes) (data : Bytes)
    (hkey : key.length = 32) (hnonce : nonce.length = 12) :
    (ChaCha20Cipher.encrypt_data sEnc macF key nonce ad data).bind
      (ChaCha20Cipher.decrypt_data sDec macF key ad) = .ok data := by
  unfold ChaCha20Cipher.encrypt_data
  rw [if_neg (by omega)]
  simp only [Except.bind]
  have hkey' : ¬ key.length ≠ 32 := by omega
  simp only [ChaCha20Cipher.decrypt_data]
  rw [if_neg hkey']
  have htake : (nonce ++ (sEnc key nonce data ++ macF key nonce ad (sEnc key nonce data))).take 12
      = nonce := List.take_left' hnonce
  have hdrop : (nonce ++ (sEnc key nonce data ++ macF key nonce ad (sEnc key nonce data))).drop 12
      = sEnc key nonce data ++ macF key nonce ad (sEnc key nonce data) := List.drop_left' hnonce
  rw [htake, hdrop]
  have hrestlen : (sEnc key nonce data ++ macF key nonce ad (sEnc key nonce data)).length
      = data.length + 16 := by
    rw [List.length_append, hsLen, hmacLen]
  rw [hrestlen]
  have hsplit : data.length + 16 - 16 = data.length := by omega
  rw [hsplit]
  have hctlen : (sEnc key nonce data).length = data.length := hsLen key nonce data
  rw [List.take_left' hctlen, List.drop_left' hctlen]
  rw [if_pos rfl, hsRound]

theorem rsa_data_roundtrip (oaepE oaepD : Bytes → Bytes)
    (hO : ∀ m, oaepD (oaepE m) = m) (key_size : Nat) (data : Bytes)
    (hlen : data.length ≤ key_size / 8 - 2 * 32 - 2) :
    (RSACipher.encrypt_data oaepE key_size data).bind
      (RSACipher.decrypt_data oaepD) = .ok data := by
  unfold RSACipher.encrypt_data
  rw [if_neg (by omega)]
  simp only [Except.bind]
  unfold RSACipher.decrypt_data
  rw [hO]

theorem dlookup_filter_out {α : Type} (k : String) (l : List (String × α)) :
    dlookup k (l.filter (fun kv => kv.1 != k)) = none := by
  induction l with
  | nil => rfl
  | cons kv rest ih =>
      obtain ⟨k', v⟩ := kv
      by_cases h : k' = k
      · subst h
        simp only [List.filter_cons, bne_self_eq_false]
        exact ih
      · simp only [List.filter_cons]
        rw [if_pos (by simp [bne, h])]
        simp only [dlookup, if_neg h]
        exact ih

/-! ### Claim theorems -/

/-- C10: the registry registers exactly the CBC/CFB/CTR AES variants,
RSA-1024/2048/4096 and ChaCha20-Poly1305; `create_algorithm` fails with the
unsupported-algorithm error for every "AES-s-OFB" name even though the
`AESCipher` constructor itself accepts mode OFB. -/
theorem c10_registry_contents :
    CryptoFactory.create_algorithm ("AES-128-OFB") = .error .unsupportedAlgorithm
  ∧ CryptoFactory.create_algorithm ("AES-192-OFB") = .error .unsupportedAlgorithm
  ∧ CryptoFactory.create_algorithm ("AES-256-OFB") = .error .unsupportedAlgorithm
  ∧ AESCipher.init 128 ("OFB") = .ok (128, ("OFB"))
  ∧ AESCipher.init 192 ("OFB") = .ok (192, ("OFB"))
  ∧ AESCipher.init 256 ("OFB") = .ok (256, ("OFB"))
  ∧ CryptoFactory.get_all_algorithms =
      [("AES-128-CBC"), ("AES-192-CBC"), ("AES-256-CBC"),
       ("AES-128-CFB"), ("AES-192-CFB"), ("AES-256-CFB"),
       ("AES-128-CTR"), ("AES-192-CTR"), ("AES-256-CTR"),
       ("RSA-1024"), ("RSA-2048"), ("RSA-4096"), ("ChaCha20-Poly1305")] := by
  refine ⟨?_, ?_, ?_, ?_, ?_, ?_, ?_⟩ <;> rfl

/-- C9 counterexample: deleting a key that does not exist does not succeed —
`delete_key` reports failure (`False`) on an empty store. -/
theorem c9_counterexample :
    KeyManager.delete_key [] ("missing") = (false, []) := rfl

/-- C9 (amended): `delete_key` returns `False` and leaves the store
untouched when the record is missing; deleting an existing record succeeds
and removes it. -/
theorem c9_delete_behavior (store : Store) (name : String) :
    (dlookup (name ++ (".key")) store = none →
       KeyManager.delete_key store name = (false, store))
  ∧ (∀ c, dlookup (name ++ (".key")) store = some c →
       (KeyManager.delete_key store name).1 = true ∧
       dlookup (name ++ (".key")) (KeyManager.delete_key store name).2 = none) := by
  constructor
  · intro h
    unfold KeyManager.delete_key
    rw [h]
  · intro c h
    unfold KeyManager.delete_key
    rw [h]
    exact ⟨rfl, dlookup_filter_out _ store⟩

/-- C9 witness: concrete instances of both branches of
`c9_delete_behavior`. -/
theorem c9_delete_behavior_witness :
    KeyManager.delete_key [] ("a") = (false, [])
  ∧ ((KeyManager.delete_key [(("a.key"), [2])] ("a")).1 = true ∧
     dlookup ("a.key") (KeyManager.delete_key [(("a.key"), [2])] ("a")).2 = none) :=
  ⟨(c9_delete_behavior [] ("a")).1 rfl,
   (c9_delete_behavior [(("a.key"), [2])] ("a")).2 [2] rfl⟩

/-- C1 counterexample: for the registered algorithm RSA-1024 the claimed
round trip fails on a 63-byte plaintext — `encrypt_data` refuses any
payload above the OAEP bound (`1024/8 - 66 = 62` bytes), so
`decrypt(encrypt(P)) = P` does not hold for arbitrary byte strings. -/
theorem c1_counterexample :
    (RSACipher.encrypt_data (fun x => x) 1024 (List.replicate 63 0)).bind
        (RSACipher.decrypt_data (fun x => x)) = .error .dataTooLarge
  ∧ (RSACipher.encrypt_data (fun x => x) 1024 (List.replicate 63 0)).bind
        (RSACipher.decrypt_data (fun x => x)) ≠ .ok (List.replicate 63 0) := by
  have h1 : (RSACipher.encrypt_data (fun x => x) 1024 (List.replicate 63 0)).bind
      (RSACipher.decrypt_data (fun x => x)) = .error .dataTooLarge := rfl
  refine ⟨h1, ?_⟩
  rw [h1]
  intro h
  exact Except.noConfusion h

/-- C1 (amended): for every registered algorithm with a well-formed
generated key the data round trip holds for arbitrary byte strings —
except that for the RSA algorithms it holds exactly for payloads within the
OAEP bound `key_size/8 - 66` (larger payloads are rejected by
`encrypt_data`, see the counterexample). -/
theorem c1_registered_roundtrip
    (E D : Bytes → Bytes → Bytes)
    (hED : ∀ k b, b.length = 16 → D k (E k b) = b)
    (hElen : ∀ k b, b.length = 16 → (E k b).length = 16)
    (sEnc sDec : Bytes → Bytes → Bytes → Bytes)
    (macF : Bytes → Bytes → Option Bytes → Bytes → Bytes)
    (hsRound : ∀ k n p, sDec k n (sEnc k n p) = p)
    (hsLen : ∀ k n p, (sEnc k n p).length = p.length)
    (hmacLen : ∀ k n a c, (macF k n a c).length = 16)
    (oaepE oaepD : Bytes → Bytes) (hO : ∀ m, oaepD (oaepE m) = m)
    (nBytes : Nat) (hn : nBytes = 16 ∨ nBytes = 24 ∨ nBytes = 32)
    (mode : String) (hmode : mode = ("CBC") ∨ mode = ("CFB") ∨ mode = ("CTR"))
    (key iv : Bytes) (hkey : key.length = nBytes) (hiv : iv.length = 16)
    (ck nonce : Bytes) (hck : ck.length = 32) (hnonce : nonce.length = 12) (ad : Option Bytes)
    (bits : Nat) (hbits : bits = 1024 ∨ bits = 2048 ∨ bits = 4096)
    (pAes pCh pRsa : Bytes) (hpRsa : pRsa.length ≤ bits / 8 - 2 * 32 - 2) :
    (("AES-") ++ toString (nBytes * 8) ++ ("-") ++ mode) ∈ CryptoFactory.get_all_algorithms
  ∧ (AESCipher.encrypt_data E (nBytes * 8) mode key iv pAes).bind
      (AESCipher.decrypt_data E D (nBytes * 8) mode key iv) = .ok pAes
  ∧ ("ChaCha20-Poly1305") ∈ CryptoFactory.get_all_algorithms
  ∧ (ChaCha20Cipher.encrypt_data sEnc macF ck nonce ad pCh).bind
      (ChaCha20Cipher.decrypt_data sDec macF ck ad) = .ok pCh
  ∧ (("RSA-") ++ toString bits) ∈ CryptoFactory.get_all_algorithms
  ∧ (RSACipher.encrypt_data oaepE bits pRsa).bind
      (RSACipher.decrypt_data oaepD) = .ok pRsa := by
  have hkey8 : key.length * 8 = nBytes * 8 := by rw [hkey]
  refine ⟨?_, ?_, ?_, ?_, ?_, ?_⟩
  · rcases hn with rfl | rfl | rfl <;> rcases hmode with rfl | rfl | rfl <;> decide
  · rcases hmode with rfl | rfl | rfl
    · exact aes_cbc_data_roundtrip E D hED hElen (nBytes * 8) key iv pAes hkey8 hiv
    · exact aes_cfb_data_roundtrip E hElen D (nBytes * 8) key iv pAes hkey8 hiv
    · exact aes_ctr_data_roundtrip E hElen D (nBytes * 8) key iv pAes hkey8 hiv
  · decide
  · exact chacha_data_roundtrip sEnc sDec macF hsRound hsLen hmacLen ck nonce ad pCh hck hnonce
  · rcases hbits with rfl | rfl | rfl <;> decide
  · exact rsa_data_roundtrip oaepE oaepD hO bits pRsa hpRsa

/-- C1 witness: the amended round trip evaluated at a concrete key, IV,
nonce and plaintexts, with the identity instantiation of the abstract
primitives. -/
theorem c1_registered_roundtrip_witness :
    (("AES-") ++ toString (32 * 8) ++ ("-") ++ ("CBC")) ∈ CryptoFactory.get_all_algorithms
  ∧ (AESCipher.encrypt_data (fun _ b => b) (32 * 8) ("CBC")
        (List.replicate 32 0) (List.replicate 16 1) [1, 2, 3, 4, 5]).bind
      (AESCipher.decrypt_data (fun _ b => b) (fun _ b => b) (32 * 8) ("CBC")
        (List.replicate 32 0) (List.replicate 16 1)) = .ok [1, 2, 3, 4, 5]
  ∧ ("ChaCha20-Poly1305") ∈ CryptoFactory.get_all_algorithms
  ∧ (ChaCha20Cipher.encrypt_data (fun _ _ p => p) (fun _ _ _ _ => List.replicate 16 0)
        (List.replicate 32 2) (List.replicate 12 3) none [9]).bind
      (ChaCha20Cipher.decrypt_data (fun _ _ p => p) (fun _ _ _ _ => List.replicate 16 0)
        (List.replicate 32 2) none) = .ok [9]
  ∧ (("RSA-") ++ toString 2048) ∈ CryptoFactory.get_all_algorithms
  ∧ (RSACipher.encrypt_data (fun x => x) 2048 [7, 7]).bind
      (RSACipher.decrypt_data (fun x => x)) = .ok [7, 7] :=
  c1_registered_roundtrip
    (fun _ b => b) (fun _ b => b) (fun _ _ _ => rfl) (fun _ _ h => h)
    (fun _ _ p => p) (fun _ _ p => p) (fun _ _ _ _ => List.replicate 16 0)
    (fun _ _ _ => rfl) (fun _ _ _ => rfl) (fun _ _ _ _ => rfl)
    (fun x => x) (fun x => x) (fun _ => rfl)
    32 (Or.inr (Or.inr rfl)) ("CBC") (Or.inl rfl)
    (List.replicate 32 0) (List.replicate 16 1) rfl rfl
    (List.replicate 32 2) (List.replicate 12 3) rfl rfl none
    2048 (Or.inr (Or.inl rfl))
    [1, 2, 3, 4, 5] [9] [7, 7] (by decide)

/-- C3: the streaming CBC pipeline pads and re-chains *every* chunk.  On a
32-byte file with chunk size 16 (two chunks), under the identity block
permutation with an all-zero key and IV, `encrypt_file` emits a PKCS7
padding block in the middle of the stream and restarts the chain from the
IV, so the ciphertext file differs from the single-shot CBC encryption of
the whole plaintext (64 bytes versus 48). -/
theorem c3_per_chunk_padding_deviates :
    CryptoBase.encrypt_file
        (fun c => AESCipher.encrypt_data (fun _ b => b) 256 ("CBC")
          (List.replicate 32 0) (List.replicate 16 0) c) 16 (List.replicate 32 0)
      = .ok (List.replicate 16 0 ++ List.replicate 16 16
             ++ (List.replicate 16 0 ++ List.replicate 16 16))
  ∧ AESCipher.encrypt_data (fun _ b => b) 256 ("CBC")
        (List.replicate 32 0) (List.replicate 16 0) (List.replicate 32 0)
      = .ok (List.replicate 32 0 ++ List.replicate 16 16)
  ∧ CryptoBase.encrypt_file
        (fun c => AESCipher.encrypt_data (fun _ b => b) 256 ("CBC")
          (List.replicate 32 0) (List.replicate 16 0) c) 16 (List.replicate 32 0)
      ≠ AESCipher.encrypt_data (fun _ b => b) 256 ("CBC")
          (List.replicate 32 0) (List.replicate 16 0) (List.replicate 32 0) := by
  refine ⟨by decide, by decide, by decide⟩

/-! ### C2: concrete evaluation lemmas (identity block permutation,
all-zero key/IV, all-zero 4096-byte file) -/

theorem flatten_replicate_replicate (m k a : Nat) :
    (List.replicate m (List.replicate k a)).flatten = List.replicate (m * k) a := by
  induction m with
  | zero => simp
  | succ m ih =>
      rw [List.replicate_succ, List.flatten_cons, ih]
      rw [show (m + 1) * k = k + m * k by ring, List.replicate_add]

theorem xorBytes_replicate (k a b : Nat) :
    xorBytes (List.replicate k a) (List.replicate k b) = List.replicate k (a ^^^ b) := by
  induction k with
  | zero => rfl
  | succ k ih =>
      simp only [List.replicate_succ]
      show (a ^^^ b) :: xorBytes (List.replicate k a) (List.replicate k b) = _
      rw [ih]

theorem cbcEnc_id_zero_blocks (m : Nat) (t : Bytes) :
    cbcEncBlocks (fun b => b) (List.replicate 16 0)
        (List.replicate m (List.replicate 16 0) ++ [t])
      = List.replicate m (List.replicate 16 0) ++ [xorBytes t (List.replicate 16 0)] := by
  have hz : xorBytes (List.replicate 16 0) (List.replicate 16 0) = List.replicate 16 0 := by
    rw [xorBytes_replicate]; simp
  induction m with
  | zero =>
      show [xorBytes t (List.replicate 16 0)] = [xorBytes t (List.replicate 16 0)]
      rfl
  | succ m ih =>
      show xorBytes (List.replicate 16 0) (List.replicate 16 0) ::
          cbcEncBlocks (fun b => b) (xorBytes (List.replicate 16 0) (List.replicate 16 0))
            (List.replicate m (List.replicate 16 0) ++ [t])
        = List.replicate (m + 1) (List.replicate 16 0) ++ [xorBytes t (List.replicate 16 0)]
      rw [hz, ih]
      rfl

theorem cbcDec_id_zero_blocks (Dk : Bytes → Bytes) (hD : ∀ b, Dk b = b) (m : Nat) :
    cbcDecBlocks Dk (List.replicate 16 0) (List.replicate m (List.replicate 16 0))
      = List.replicate m (List.replicate 16 0) := by
  have hz : xorBytes (List.replicate 16 0) (List.replicate 16 0) = List.replicate 16 0 := by
    rw [xorBytes_replicate]; simp
  induction m with
  | zero => rfl
  | succ m ih =>
      show xorBytes (Dk (List.replicate 16 0)) (List.replicate 16 0) ::
          cbcDecBlocks Dk (List.replicate 16 0) (List.replicate m (List.replicate 16 0))
        = List.replicate (m + 1) (List.replicate 16 0)
      rw [hD, hz, ih]
      rfl

theorem chunksOf16_replicate (m a : Nat) :
    chunksOf 16 (List.replicate (m * 16) a) = List.replicate m (List.replicate 16 a) := by
  rw [← flatten_replicate_replicate m 16 a]
  apply chunksOf_of_flatten 16 (by norm_num)
  · intro b hb
    have := List.mem_of_mem_dropLast hb
    rw [List.eq_of_mem_replicate this]
    simp
  · intro b hb
    rw [List.eq_of_mem_replicate hb]
    simp

theorem chunksOf16_padded_zeros :
    chunksOf 16 (List.replicate 4096 0 ++ List.replicate 16 16)
      = List.replicate 256 (List.replicate 16 0) ++ [List.replicate 16 16] := by
  have hflat : (List.replicate 256 (List.replicate 16 0) ++ [List.replicate 16 16]).flatten
      = List.replicate 4096 0 ++ List.replicate 16 16 := by
    rw [List.flatten_append, flatten_replicate_replicate]
    norm_num
  rw [← hflat]
  apply chunksOf_of_flatten 16 (by norm_num)
  · intro b hb
    rw [List.dropLast_concat] at hb
    rw [List.eq_of_mem_replicate hb]
    simp
  · intro b hb
    rcases List.mem_append.mp hb with h | h
    · rw [List.eq_of_mem_replicate h]; simp
    · simp only [List.mem_singleton] at h
      subst h; simp

/-! ### C2: concrete evaluation at the 4096-byte boundary -/

theorem replicate_nonnil (n a : Nat) (h : 0 < n) : List.replicate n a ≠ [] := by
  intro hx
  have hlen := congrArg List.length hx
  rw [List.length_replicate, List.length_nil] at hlen
  omega

theorem ne_nil_append_left {l₁ l₂ : Bytes} (h : l₁ ≠ []) : l₁ ++ l₂ ≠ [] := by
  intro hx
  rcases List.append_eq_nil.mp hx with ⟨h1, _⟩
  exact h h1

/-- C2: the RSA envelope round trip fails already at the 4096-byte file
size (one full default chunk): under the identity instantiation of the
primitives with an all-zero session key, IV and file, `encrypt_file`
produces a well-formed container whose AES stream is the 4112-byte
per-chunk-padded ciphertext, and `decrypt_file` applied to that very
container fails with the invalid-padding error, because it re-chunks the
ciphertext at 4096 bytes, misaligned with the 4112-byte padded unit. -/
theorem c2_envelope_roundtrip_fails :
    RSACipher.encrypt_file (fun x => x) (fun _ b => b)
        (List.replicate 32 0) (List.replicate 16 0) 4096 (List.replicate 4096 0)
      = .ok (natToBytesBE 4 48 ++ ((List.replicate 32 0 ++ List.replicate 16 0)
             ++ (List.replicate 4096 0 ++ List.replicate 16 16)))
  ∧ RSACipher.decrypt_file (fun x => x) (fun _ b => b) (fun _ b => b) 4096
        (natToBytesBE 4 48 ++ ((List.replicate 32 0 ++ List.replicate 16 0)
         ++ (List.replicate 4096 0 ++ List.replicate 16 16)))
      = .error .invalidPadding := by
  constructor
  · have hchunks : chunksOf 4096 (List.replicate 4096 (0:Nat)) = [List.replicate 4096 0] := by
      rw [chunksOf_cons 4096 (by norm_num) _ (replicate_nonnil 4096 0 (by norm_num))]
      rw [List.take_of_length_le (by rw [List.length_replicate]),
          List.drop_eq_nil_of_le (by rw [List.length_replicate]), chunksOf_nil]
    have h16 : (16 : Nat) - 4096 % 16 = 16 := by norm_num
    have hpad : pkcs7_pad (List.replicate 4096 0)
        = List.replicate 4096 0 ++ List.replicate 16 16 := by
      unfold pkcs7_pad
      rw [List.length_replicate, h16]
    have hxz : xorBytes (List.replicate 16 16) (List.replicate 16 0) = List.replicate 16 16 := by
      rw [xorBytes_replicate]; simp
    have hencdata : AESCipher.encrypt_data (fun _ b => b) 256 ("CBC")
        (List.replicate 32 0) (List.replicate 16 0) (List.replicate 4096 0)
        = .ok (List.replicate 4096 0 ++ List.replicate 16 16) := by
      have h0 : AESCipher.encrypt_data (fun _ b => b) 256 ("CBC")
          (List.replicate 32 0) (List.replicate 16 0) (List.replicate 4096 0)
          = .ok (cbcEncBlocks (fun b => b) (List.replicate 16 0)
              (chunksOf 16 (pkcs7_pad (List.replicate 4096 0)))).flatten := rfl
      rw [h0, hpad, chunksOf16_padded_zeros, cbcEnc_id_zero_blocks, hxz]
      rw [List.flatten_append, flatten_replicate_replicate]
      rfl
    have hCB : CryptoBase.encrypt_file
        (fun c => AESCipher.encrypt_data (fun _ b => b) 256 ("CBC")
          (List.replicate 32 0) (List.replicate 16 0) c) 4096 (List.replicate 4096 0)
        = .ok (List.replicate 4096 0 ++ List.replicate 16 16) := by
      unfold CryptoBase.encrypt_file
      rw [hchunks]
      show (match AESCipher.encrypt_data (fun _ b => b) 256 ("CBC")
          (List.replicate 32 0) (List.replicate 16 0) (List.replicate 4096 0) with
        | Except.error e => (Except.error e : Except Err Bytes)
        | Except.ok enc =>
            match mapConcat (fun c => AESCipher.encrypt_data (fun _ b => b) 256 ("CBC")
              (List.replicate 32 0) (List.replicate 16 0) c) [] with
            | Except.error e => Except.error e
            | Except.ok rest => Except.ok (enc ++ rest)) = _
      rw [hencdata]
      show Except.ok ((List.replicate 4096 0 ++ List.replicate 16 16) ++ []) = _
      rw [List.append_nil]
    unfold RSACipher.encrypt_file
    rw [hCB]
    show Except.ok (natToBytesBE 4 ((List.replicate 32 0 ++ List.replicate 16 0) : Bytes).length
        ++ (List.replicate 32 0 ++ List.replicate 16 0)
        ++ (List.replicate 4096 0 ++ List.replicate 16 16)) = _
    rw [List.length_append, List.length_replicate, List.length_replicate, List.append_assoc]
  · have hP : (natToBytesBE 4 (48:Nat)).length = 4 := natToBytesBE_length 4 48
    have htake4 : (natToBytesBE 4 48 ++ ((List.replicate 32 0 ++ List.replicate 16 0)
        ++ (List.replicate 4096 0 ++ List.replicate 16 16))).take 4
        = natToBytesBE 4 48 := List.take_left' hP
    have hdrop4 : (natToBytesBE 4 48 ++ ((List.replicate 32 0 ++ List.replicate 16 0)
        ++ (List.replicate 4096 0 ++ List.replicate 16 16))).drop 4
        = (List.replicate 32 0 ++ List.replicate 16 0)
          ++ (List.replicate 4096 0 ++ List.replicate 16 16) := List.drop_left' hP
    have hkl : bytesToNatBE (natToBytesBE 4 48) = 48 := by decide
    have hW : ((List.replicate 32 (0:Nat)) ++ List.replicate 16 0).length = 48 := by
      rw [List.length_append, List.length_replicate, List.length_replicate]
    have hsk : (List.replicate 32 (0:Nat)).length = 32 := List.length_replicate 32 0
    have htakeW : ((List.replicate 32 0 ++ List.replicate 16 0)
        ++ (List.replicate 4096 0 ++ List.replicate 16 16)).take 48
        = List.replicate 32 0 ++ List.replicate 16 0 := List.take_left' hW
    have hdropW : ((List.replicate 32 0 ++ List.replicate 16 0)
        ++ (List.replicate 4096 0 ++ List.replicate 16 16)).drop 48
        = List.replicate 4096 0 ++ List.replicate 16 16 := List.drop_left' hW
    have htakesk : (List.replicate 32 0 ++ List.replicate 16 0).take 32
        = List.replicate 32 (0:Nat) := List.take_left' hsk
    have hdropsk : (List.replicate 32 0 ++ List.replicate 16 0).drop 32
        = List.replicate 16 (0:Nat) := List.drop_left' hsk
    simp only [RSACipher.decrypt_file, htake4, hdrop4, hkl, hP]
    rw [if_neg (by omega), htakeW, hW]
    rw [if_neg (by omega)]
    rw [show (48 - 16 : Nat) = 32 from rfl, htakesk, hdropsk, hsk, hdropW]
    rw [show AESCipher.init (32 * 8) ("CBC") = Except.ok (256, ("CBC")) from rfl]
    show CryptoBase.decrypt_file
        (fun c => AESCipher.decrypt_data (fun _ b => b) (fun _ b => b) (32 * 8) ("CBC")
          (List.replicate 32 0) (List.replicate 16 0) c) 4096
        (List.replicate 4096 0 ++ List.replicate 16 16) = .error .invalidPadding
    have hctchunks : chunksOf 4096 (List.replicate 4096 (0:Nat) ++ List.replicate 16 16)
        = [List.replicate 4096 0, List.replicate 16 16] := by
      rw [chunksOf_cons 4096 (by norm_num) _
        (ne_nil_append_left (replicate_nonnil 4096 0 (by norm_num)))]
      rw [List.take_left' (List.length_replicate 4096 0),
          List.drop_left' (List.length_replicate 4096 0)]
      rw [chunksOf_cons 4096 (by norm_num) _ (replicate_nonnil 16 16 (by norm_num))]
      rw [List.take_of_length_le (by rw [List.length_replicate]; omega),
          List.drop_eq_nil_of_le (by rw [List.length_replicate]; omega), chunksOf_nil]
    have hdecdata : AESCipher.decrypt_data (fun _ b => b) (fun _ b => b) (32 * 8) ("CBC")
        (List.replicate 32 0) (List.replicate 16 0) (List.replicate 4096 0)
        = .error .invalidPadding := by
      have hrep : List.replicate 4096 (0:Nat) = List.replicate (256 * 16) 0 := rfl
      have hlast : (List.replicate 4096 (0:Nat)).getLast? = some 0 := by
        have h : List.replicate 4096 (0:Nat) = List.replicate 4095 0 ++ [0] :=
          List.replicate_succ' 4095 0
        rw [h]
        exact List.getLast?_concat _
      have hflatrep : (List.replicate 256 (List.replicate 16 (0:Nat))).flatten
          = List.replicate 4096 0 := by
        rw [flatten_replicate_replicate]
      unfold AESCipher.decrypt_data
      rw [if_neg (replicate_nonnil 16 0 (by norm_num))]
      rw [if_neg (by rw [List.length_replicate]; omega)]
      rw [if_neg (by rw [List.length_replicate]; omega)]
      rw [if_pos rfl]
      rw [hrep, chunksOf16_replicate]
      rw [cbcDec_id_zero_blocks ((fun (_ : Bytes) (b : Bytes) => b) (List.replicate 32 0))
        (fun b => rfl) 256]
      rw [hflatrep]
      simp only [pkcs7_unpad]
      rw [if_neg (replicate_nonnil 4096 0 (by norm_num))]
      rw [if_neg (by rw [List.length_replicate]; omega)]
      rw [hlast, Option.getD_some]
      rw [if_pos rfl]
    unfold CryptoBase.decrypt_file
    rw [hctchunks]
    simp only [mapConcat]
    rw [hdecdata]

theorem set_append_of_lt (v : Nat) :
    ∀ (xs ys : Bytes) (i : Nat), i < xs.length →
      (xs ++ ys).set i v = xs.set i v ++ ys := by
  intro xs
  induction xs with
  | nil => intro ys i h; simp at h
  | cons x xs ih =>
      intro ys i h
      cases i with
      | zero => rfl
      | succ n =>
          show x :: (xs ++ ys).set n v = x :: (xs.set n v ++ ys)
          rw [ih ys n (by simp at h; omega)]

theorem getD_append_of_lt :
    ∀ (xs ys : Bytes) (i : Nat), i < xs.length →
      (xs ++ ys).getD i 0 = xs.getD i 0 := by
  intro xs
  induction xs with
  | nil => intro ys i h; simp at h
  | cons x xs ih =>
      intro ys i h
      cases i with
      | zero => rfl
      | succ n => exact ih ys n (by simp at h; omega)

theorem set_append_add :
    ∀ (xs ys : Bytes) (n v : Nat),
      (xs ++ ys).set (xs.length + n) v = xs ++ ys.set n v := by
  intro xs
  induction xs with
  | nil =>
      intro ys n v
      rw [List.nil_append, List.length_nil, Nat.zero_add, List.nil_append]
  | cons x xs ih =>
      intro ys n v
      show (x :: (xs ++ ys)).set (xs.length + 1 + n) v = x :: (xs ++ ys.set n v)
      rw [Nat.add_right_comm]
      show x :: (xs ++ ys).set (xs.length + n) v = x :: (xs ++ ys.set n v)
      rw [ih ys n v]

theorem getD_append_add :
    ∀ (xs ys : Bytes) (n : Nat),
      (xs ++ ys).getD (xs.length + n) 0 = ys.getD n 0 := by
  intro xs
  induction xs with
  | nil =>
      intro ys n
      rw [List.nil_append, List.length_nil, Nat.zero_add]
  | cons x xs ih =>
      intro ys n
      show (x :: (xs ++ ys)).getD (xs.length + 1 + n) 0 = ys.getD n 0
      rw [Nat.add_right_comm]
      show (xs ++ ys).getD (xs.length + n) 0 = ys.getD n 0
      exact ih ys n

theorem flipBit_append_left (i j : Nat) (xs ys : Bytes) (h : i < xs.length) :
    flipBit i j (xs ++ ys) = flipBit i j xs ++ ys := by
  unfold flipBit
  rw [getD_append_of_lt xs ys i h, set_append_of_lt _ xs ys i h]

theorem flipBit_append_right (n j : Nat) (xs ys : Bytes) :
    flipBit (xs.length + n) j (xs ++ ys) = xs ++ flipBit n j ys := by
  unfold flipBit
  rw [getD_append_add xs ys n, set_append_add xs ys n]

theorem flipBit_length (i j : Nat) (bs : Bytes) : (flipBit i j bs).length = bs.length := by
  unfold flipBit
  exact List.length_set bs i _

theorem getD_set_self : ∀ (bs : Bytes) (i : Nat) (v : Nat), i < bs.length →
    (bs.set i v).getD i 0 = v := by
  intro bs
  induction bs with
  | nil => intro i v h; simp at h
  | cons b bs ih =>
      intro i v h
      cases i with
      | zero => rfl
      | succ n => exact ih n v (by simp at h; omega)

theorem flipBit_ne (i j : Nat) (bs : Bytes) (h : i < bs.length) :
    flipBit i j bs ≠ bs := by
  intro hx
  have h1 : (flipBit i j bs).getD i 0 = bs.getD i 0 ^^^ 1 <<< j :=
    getD_set_self bs i _ h
  rw [hx] at h1
  have h2 : 1 <<< j ≠ 0 := by
    rw [Nat.one_shiftLeft]
    positivity
  have h3 : bs.getD i 0 ^^^ 1 <<< j ≠ bs.getD i 0 := by
    intro hc
    have hca := congrArg (fun x => x ^^^ bs.getD i 0) hc
    simp only at hca
    rw [Nat.xor_comm (bs.getD i 0) (1 <<< j)] at hca
    rw [Nat.xor_assoc] at hca
    rw [Nat.xor_self] at hca
    rw [Nat.xor_zero] at hca
    exact h2 hca
  exact h3 h1.symm

/-- C4: for the ChaCha20-Poly1305 token `nonce ‖ ciphertext ‖ tag` produced
by `encrypt_data`, flipping any single bit of the ciphertext or tag portion
makes `decrypt_data` fail with the distinct integrity error (the
wrong-key-or-corrupted `ValueError` raised at the `InvalidTag` handler, not
the generic `RuntimeError`), and in particular altered plaintext is never
returned.  A flip inside the ciphertext relies on the MAC separating the
two ciphertexts (`hcoll`), the ideal-MAC reading of Poly1305's
authenticity; a flip inside the tag fails unconditionally. -/
theorem c4_aead_bitflip_integrity
    (sEnc sDec : Bytes → Bytes → Bytes → Bytes)
    (macF : Bytes → Bytes → Option Bytes → Bytes → Bytes)
    (hsLen : ∀ k n p, (sEnc k n p).length = p.length)
    (hmacLen : ∀ k n a c, (macF k n a c).length = 16)
    (key nonce : Bytes) (ad : Option Bytes) (p : Bytes)
    (hkey : key.length = 32) (hnonce : nonce.length = 12)
    (i j : Nat) (_hj : j < 8) (hi : i < p.length + 16)
    (hcoll : i < p.length →
      macF key nonce ad (flipBit i j (sEnc key nonce p))
        ≠ macF key nonce ad (sEnc key nonce p)) :
    ChaCha20Cipher.encrypt_data sEnc macF key nonce ad p
      = .ok (nonce ++ (sEnc key nonce p ++ macF key nonce ad (sEnc key nonce p)))
  ∧ ChaCha20Cipher.decrypt_data sDec macF key ad
      (flipBit (12 + i) j
        (nonce ++ (sEnc key nonce p ++ macF key nonce ad (sEnc key nonce p))))
      = .error .invalidTag := by
  have hct : (sEnc key nonce p).length = p.length := hsLen key nonce p
  have htg : (macF key nonce ad (sEnc key nonce p)).length = 16 :=
    hmacLen key nonce ad (sEnc key nonce p)
  constructor
  · simp only [ChaCha20Cipher.encrypt_data]
    rw [if_neg (by omega)]
  · rw [show (12 : Nat) + i = nonce.length + i from by rw [hnonce]]
    rw [flipBit_append_right]
    simp only [ChaCha20Cipher.decrypt_data]
    rw [if_neg (by omega)]
    rw [List.take_left' hnonce, List.drop_left' hnonce]
    have hXlen : (flipBit i j (sEnc key nonce p
        ++ macF key nonce ad (sEnc key nonce p))).length = p.length + 16 := by
      rw [flipBit_length, List.length_append, hct, htg]
    rw [hXlen]
    rw [show p.length + 16 - 16 = p.length from by omega]
    rcases Nat.lt_or_ge i p.length with hilt | hige
    · have hict : i < (sEnc key nonce p).length := by omega
      rw [flipBit_append_left i j _ _ hict]
      have hflen : (flipBit i j (sEnc key nonce p)).length = p.length := by
        rw [flipBit_length, hct]
      rw [List.take_left' hflen, List.drop_left' hflen]
      rw [if_neg (hcoll hilt)]
    · rw [show i = (sEnc key nonce p).length + (i - p.length) from by rw [hct]; omega]
      rw [flipBit_append_right]
      rw [List.take_left' hct, List.drop_left' hct]
      have hne : flipBit (i - p.length) j (macF key nonce ad (sEnc key nonce p))
          ≠ macF key nonce ad (sEnc key nonce p) :=
        flipBit_ne (i - p.length) j _ (by rw [htg]; omega)
      rw [if_neg (fun hc => hne hc.symm)]

/-- C4 witness: a one-byte plaintext with the identity stream cipher and a
copy-the-first-16-bytes MAC; flipping bit 0 of the single ciphertext byte
makes decryption fail with the integrity error. -/
theorem c4_aead_bitflip_integrity_witness :
    ChaCha20Cipher.encrypt_data (fun _ _ q => q)
        (fun _ _ _ c => (c ++ List.replicate 16 0).take 16)
        (List.replicate 32 0) (List.replicate 12 0) none [5]
      = .ok (List.replicate 12 0 ++ ([5] ++ (([5] ++ List.replicate 16 0).take 16)))
  ∧ ChaCha20Cipher.decrypt_data (fun _ _ q => q)
        (fun _ _ _ c => (c ++ List.replicate 16 0).take 16)
        (List.replicate 32 0) none
        (flipBit (12 + 0) 0
          (List.replicate 12 0 ++ ([5] ++ (([5] ++ List.replicate 16 0).take 16))))
      = .error .invalidTag :=
  c4_aead_bitflip_integrity (fun _ _ q => q) (fun _ _ q => q)
    (fun _ _ _ c => (c ++ List.replicate 16 0).take 16)
    (fun _ _ _ => rfl)
    (fun _ _ _ c => by rw [List.length_take, List.length_append, List.length_replicate]; omega)
    (List.replicate 32 0) (List.replicate 12 0) none [5] rfl rfl
    0 0 (by norm_num) (by norm_num) (fun _ => by decide)

/-- C7: the hybrid container layout.  Every file produced by
`RSACipher.encrypt_file` is
`[4-byte big-endian length of wrapped][wrapped = OAEP(session_key ++ iv),
48 bytes of plaintext input][AES-256-CBC stream]`, and `decrypt_file`
recovers the length, the wrapped blob, the 32-byte session key and the
16-byte IV, and routes the remainder through the chunked AES-CBC decrypt
path under exactly those parameters. -/
theorem c7_container_layout
    (oaepE oaepD : Bytes → Bytes) (hO : ∀ m, oaepD (oaepE m) = m)
    (E D : Bytes → Bytes → Bytes)
    (sk iv : Bytes) (hsk : sk.length = 32) (hiv : iv.length = 16)
    (hWrap : (oaepE (sk ++ iv)).length < 2 ^ 32)
    (chunkSize : Nat) (data out : Bytes)
    (henc : RSACipher.encrypt_file oaepE E sk iv chunkSize data = .ok out) :
    ∃ ct, CryptoBase.encrypt_file
        (fun c => AESCipher.encrypt_data E 256 ("CBC") sk iv c) chunkSize data = .ok ct
      ∧ out = natToBytesBE 4 (oaepE (sk ++ iv)).length ++ oaepE (sk ++ iv) ++ ct
      ∧ (sk ++ iv).length = 48
      ∧ out.take 4 = natToBytesBE 4 (oaepE (sk ++ iv)).length
      ∧ bytesToNatBE (out.take 4) = (oaepE (sk ++ iv)).length
      ∧ (out.drop 4).take (oaepE (sk ++ iv)).length = oaepE (sk ++ iv)
      ∧ oaepD (oaepE (sk ++ iv)) = sk ++ iv
      ∧ (sk ++ iv).take ((sk ++ iv).length - 16) = sk
      ∧ (sk ++ iv).drop ((sk ++ iv).length - 16) = iv
      ∧ RSACipher.decrypt_file oaepD E D chunkSize out
          = CryptoBase.decrypt_file
              (fun c => AESCipher.decrypt_data E D 256 ("CBC") sk iv c) chunkSize ct := by
  unfold RSACipher.encrypt_file at henc
  cases hCB : CryptoBase.encrypt_file
      (fun c => AESCipher.encrypt_data E 256 ("CBC") sk iv c) chunkSize data with
  | error e => rw [hCB] at henc; exact absurd henc (by simp)
  | ok ct =>
      rw [hCB] at henc
      simp only at henc
      injection henc with hout
      have hWlen : (sk ++ iv).length = 48 := by
        rw [List.length_append, hsk, hiv]
      have hPlen : (natToBytesBE 4 (oaepE (sk ++ iv)).length).length = 4 :=
        natToBytesBE_length 4 _
      have hlt : (oaepE (sk ++ iv)).length < 256 ^ 4 := by
        have h2 : (2:Nat) ^ 32 = 256 ^ 4 := by norm_num
        omega
      have hassoc : natToBytesBE 4 (oaepE (sk ++ iv)).length ++ oaepE (sk ++ iv) ++ ct
          = natToBytesBE 4 (oaepE (sk ++ iv)).length ++ (oaepE (sk ++ iv) ++ ct) :=
        List.append_assoc _ _ _
      have htake4 : (natToBytesBE 4 (oaepE (sk ++ iv)).length ++ oaepE (sk ++ iv) ++ ct).take 4
          = natToBytesBE 4 (oaepE (sk ++ iv)).length := by
        rw [hassoc]
        exact List.take_left' hPlen
      have hdrop4 : (natToBytesBE 4 (oaepE (sk ++ iv)).length ++ oaepE (sk ++ iv) ++ ct).drop 4
          = oaepE (sk ++ iv) ++ ct := by
        rw [hassoc]
        exact List.drop_left' hPlen
      have hkl2 : bytesToNatBE (natToBytesBE 4 (oaepE (sk ++ iv)).length)
          = (oaepE (sk ++ iv)).length := bytesToNatBE_natToBytesBE 4 _ hlt
      have htakeWr : (oaepE (sk ++ iv) ++ ct).take (oaepE (sk ++ iv)).length
          = oaepE (sk ++ iv) := List.take_left _ _
      have hdropWr : (oaepE (sk ++ iv) ++ ct).drop (oaepE (sk ++ iv)).length
          = ct := List.drop_left _ _
      have hsktake : (sk ++ iv).take ((sk ++ iv).length - 16) = sk := by
        rw [hWlen, show (48 - 16 : Nat) = 32 from rfl]
        exact List.take_left' hsk
      have hivdrop : (sk ++ iv).drop ((sk ++ iv).length - 16) = iv := by
        rw [hWlen, show (48 - 16 : Nat) = 32 from rfl]
        exact List.drop_left' hsk
      have hroute : RSACipher.decrypt_file oaepD E D chunkSize
          (natToBytesBE 4 (oaepE (sk ++ iv)).length ++ oaepE (sk ++ iv) ++ ct)
          = CryptoBase.decrypt_file
              (fun c => AESCipher.decrypt_data E D 256 ("CBC") sk iv c) chunkSize ct := by
        simp only [RSACipher.decrypt_file, htake4, hdrop4, hkl2, hPlen, htakeWr, hdropWr, hO]
        rw [if_neg (by omega), if_neg (by omega)]
        rw [hsktake, hivdrop, hsk]
        rfl
      subst hout
      exact ⟨ct, rfl, rfl, hWlen, htake4, by rw [htake4]; exact hkl2,
        by rw [hdrop4]; exact htakeWr, hO _, hsktake, hivdrop, hroute⟩

/-- C7 witness: the container layout at a concrete empty file with the
identity OAEP instantiation. -/
theorem c7_container_layout_witness :
    ∃ ct, CryptoBase.encrypt_file
        (fun c => AESCipher.encrypt_data (fun _ b => b) 256 ("CBC")
          (List.replicate 32 0) (List.replicate 16 0) c) 4096 [] = .ok ct
      ∧ natToBytesBE 4 48 ++ (List.replicate 32 0 ++ List.replicate 16 0) ++ ([] : Bytes)
          = natToBytesBE 4 48 ++ (List.replicate 32 0 ++ List.replicate 16 0) ++ ct
      ∧ ((List.replicate 32 0 ++ List.replicate 16 0) : Bytes).length = 48
      ∧ (natToBytesBE 4 48 ++ (List.replicate 32 0 ++ List.replicate 16 0) ++ ([] : Bytes)).take 4
          = natToBytesBE 4 48
      ∧ bytesToNatBE ((natToBytesBE 4 48
          ++ (List.replicate 32 0 ++ List.replicate 16 0) ++ ([] : Bytes)).take 4) = 48
      ∧ ((natToBytesBE 4 48
          ++ (List.replicate 32 0 ++ List.replicate 16 0) ++ ([] : Bytes)).drop 4).take 48
          = List.replicate 32 0 ++ List.replicate 16 0
      ∧ (List.replicate 32 0 ++ List.replicate 16 0 : Bytes)
          = List.replicate 32 0 ++ List.replicate 16 0
      ∧ ((List.replicate 32 0 ++ List.replicate 16 0 : Bytes)).take
            (((List.replicate 32 0 ++ List.replicate 16 0) : Bytes).length - 16)
          = List.replicate 32 0
      ∧ ((List.replicate 32 0 ++ List.replicate 16 0 : Bytes)).drop
            (((List.replicate 32 0 ++ List.replicate 16 0) : Bytes).length - 16)
          = List.replicate 16 0
      ∧ RSACipher.decrypt_file (fun x => x) (fun _ b => b) (fun _ b => b) 4096
            (natToBytesBE 4 48 ++ (List.replicate 32 0 ++ List.replicate 16 0) ++ ([] : Bytes))
          = CryptoBase.decrypt_file
              (fun c => AESCipher.decrypt_data (fun _ b => b) (fun _ b => b) 256 ("CBC")
                (List.replicate 32 0) (List.replicate 16 0) c) 4096 ct :=
  c7_container_layout (fun x => x) (fun x => x) (fun _ => rfl)
    (fun _ b => b) (fun _ b => b)
    (List.replicate 32 0) (List.replicate 16 0) rfl rfl (by decide)
    4096 []
    (natToBytesBE 4 48 ++ (List.replicate 32 0 ++ List.replicate 16 0) ++ ([] : Bytes)) rfl

/-! ### Framing lemmas for the key-record file format -/

theorem magic_length : magic.length = 10 := rfl

theorem loadParse_encrypted (jsonD : Bytes → Option Record) (kdf : String → Bytes → Bytes)
    (fDec : Bytes → Bytes → Option Bytes) (salt tok : Bytes) (pw : String)
    (hsalt : salt.length = 16) :
    KeyManager.loadParse jsonD kdf fDec (magic ++ salt ++ tok) (some pw)
      = match fDec (kdf pw salt) tok with
        | none => none
        | some dec => jsonD dec := by
  have hmag : (magic ++ salt ++ tok).take 10 = magic := by
    rw [List.append_assoc]
    exact List.take_left' magic_length
  have hdrop10 : (magic ++ salt ++ tok).drop 10 = salt ++ tok := by
    rw [List.append_assoc]
    exact List.drop_left' magic_length
  have hsalt' : ((magic ++ salt ++ tok).drop 10).take 16 = salt := by
    rw [hdrop10]
    exact List.take_left' hsalt
  have hdrop26 : (magic ++ salt ++ tok).drop 26 = tok := by
    have h := List.drop_drop 16 10 (magic ++ salt ++ tok)
    rw [hdrop10] at h
    rw [show (26 : Nat) = 16 + 10 from rfl, ← h]
    exact List.drop_left' hsalt
  simp only [KeyManager.loadParse, hmag, hsalt', hdrop26, if_pos rfl, if_true]

theorem loadParse_plain (jsonD : Bytes → Option Record) (kdf : String → Bytes → Bytes)
    (fDec : Bytes → Bytes → Option Bytes) (fd : Bytes) (password : Option String)
    (h : fd.take 10 ≠ magic) :
    KeyManager.loadParse jsonD kdf fDec fd password = jsonD fd := by
  simp only [KeyManager.loadParse, if_neg h]

theorem loadParse_encrypted_ok (jsonD : Bytes → Option Record) (kdf : String → Bytes → Bytes)
    (fDec : Bytes → Bytes → Option Bytes) (salt tok dec : Bytes) (pw : String)
    (hsalt : salt.length = 16) (hdec : fDec (kdf pw salt) tok = some dec) :
    KeyManager.loadParse jsonD kdf fDec (magic ++ salt ++ tok) (some pw) = jsonD dec := by
  rw [loadParse_encrypted jsonD kdf fDec salt tok pw hsalt, hdec]

theorem load_key_of_found (jsonD : Bytes → Option Record) (kdf : String → Bytes → Bytes)
    (fDec : Bytes → Bytes → Option Bytes) (store : Store) (key_name : String)
    (password : Option String) (fd : Bytes)
    (hfind : dlookup (key_name ++ (".key")) store = some fd) :
    KeyManager.load_key jsonD kdf fDec store key_name password
      = match KeyManager.loadParse jsonD kdf fDec fd password with
        | none => none
        | some key_data => some (postprocess [] key_data) := by
  unfold KeyManager.load_key
  rw [hfind]

theorem load_key_of_missing (jsonD : Bytes → Option Record) (kdf : String → Bytes → Bytes)
    (fDec : Bytes → Bytes → Option Bytes) (store : Store) (key_name : String)
    (password : Option String)
    (hfind : dlookup (key_name ++ (".key")) store = none) :
    KeyManager.load_key jsonD kdf fDec store key_name password = none := by
  unfold KeyManager.load_key
  rw [hfind]

/-- C5: a key record saved under a password can never be loaded with a
different password: the Fernet unwrap under the wrongly derived key fails
(`InvalidToken`), and `load_key` returns the single undifferentiated
failure value `none` (the spec's `WrongPasswordError`), never any key
material.  `hFauth` is Fernet's authentication contract and `hkdf` the
injectivity of the password KDF at this salt. -/
theorem c5_wrong_password_fails
    (jsonE : Record → Bytes) (jsonD : Bytes → Option Record)
    (kdf : String → Bytes → Bytes)
    (fEnc : Bytes → Bytes → Bytes) (fDec : Bytes → Bytes → Option Bytes)
    (hFauth : ∀ k' k m, k' ≠ k → fDec k' (fEnc k m) = none)
    (salt now : Bytes) (hsalt : salt.length = 16)
    (store : Store) (keyData : List (String × KVal)) (name : String)
    (hname : sanitize name = name)
    (pw pw' : String)
    (hkdf : kdf pw' salt ≠ kdf pw salt) :
    KeyManager.load_key jsonD kdf fDec
      (KeyManager.save_key jsonE kdf fEnc salt now store keyData name (some pw))
      name (some pw') = none := by
  have hfind : dlookup (name ++ (".key"))
      (KeyManager.save_key jsonE kdf fEnc salt now store keyData name (some pw))
      = some (magic ++ salt ++ fEnc (kdf pw salt) (jsonE (saveRecord keyData name now))) := by
    unfold KeyManager.save_key
    rw [hname]
    exact dlookup_dinsert_self _ _ _
  rw [load_key_of_found jsonD kdf fDec _ name (some pw') _ hfind]
  rw [loadParse_encrypted jsonD kdf fDec salt _ pw' hsalt]
  rw [hFauth _ _ _ hkdf]

/-- C5 witness: concrete store, key data and passwords; the Fernet model
tags the token with the key, the KDF embeds the password. -/
theorem c5_wrong_password_fails_witness :
    KeyManager.load_key (fun _ => none) (fun pw _ => strB pw)
      (fun k c => if c = k then some [] else none)
      (KeyManager.save_key (fun _ => [123]) (fun pw _ => strB pw)
        (fun k _ => k) (List.replicate 16 0) [] []
        [(("key"), KVal.bytes [7])] ("k1") (some ("a")))
      ("k1") (some ("b")) = none :=
  c5_wrong_password_fails (fun _ => [123]) (fun _ => none) (fun pw _ => strB pw)
    (fun k _ => k) (fun k c => if c = k then some [] else none)
    (fun k' k m h => by
      show (if k = k' then some ([] : Bytes) else none) = none
      rw [if_neg (fun hc => h hc.symm)])
    (List.replicate 16 0) [] (by decide) [] [(("key"), KVal.bytes [7])] ("k1") (by decide)
    ("a") ("b") (by decide)

/-- C6 counterexample: save-then-load is *not* byte-identical for every key
name — a key saved under the name `a b` is stored under the sanitized file
name `a_b.key`, and `load_key` with the original name finds nothing and
returns `none` instead of the key material. -/
theorem c6_counterexample :
    KeyManager.load_key (fun _ => some []) (fun _ _ => []) (fun _ _ => some [])
      (KeyManager.save_key (fun _ => [123]) (fun _ _ => []) (fun _ m => m)
        (List.replicate 16 0) [] [] [(("key"), KVal.bytes [7])] ("a b") none)
      ("a b") none = none := by
  rfl

/-- C6 (amended): for a sanitization-stable key name and a key-data
dictionary whose entries naming the byte field `f` under the `_b64`
renaming (such as the `key_b64`/`iv_b64` string companions that
`generate_key` stores alongside `key`/`iv`) encode the same bytes as `f`,
save followed by load with the same name and the same (optional) password
succeeds and returns `f` byte-identical.  `hJ` is the JSON round trip at
this record, `hF` the Fernet round trip, `hMagicFree` the fact that JSON
text never starts with the `ENCRYPTED:` marker. -/
theorem c6_save_load_roundtrip
    (jsonE : Record → Bytes) (jsonD : Bytes → Option Record)
    (kdf : String → Bytes → Bytes)
    (fEnc : Bytes → Bytes → Bytes) (fDec : Bytes → Bytes → Option Bytes)
    (hF : ∀ k m, fDec k (fEnc k m) = some m)
    (hMagicFree : ∀ r, (jsonE r).take 10 ≠ magic)
    (salt now : Bytes) (hsalt : salt.length = 16)
    (store : Store) (keyData : List (String × KVal)) (name : String)
    (hname : sanitize name = name)
    (password : Option String)
    (hJ : jsonD (jsonE (saveRecord keyData name now))
        = some (saveRecord keyData name now))
    (f : String) (hf : f ∈ byteFieldNames) (w : Bytes) (hw : ∀ x ∈ w, x < 256)
    (hmem : dlookup f keyData = some (.bytes w))
    (hnodup : (keyData.map Prod.fst).Nodup)
    (hshadow : ∀ kv ∈ keyData, kv.1 ≠ f → replB64 kv.1 = f →
        kv.2 = KVal.s (b64encode w) ∨ kv.2 = KVal.bytes w) :
    KeyManager.load_key jsonD kdf fDec
        (KeyManager.save_key jsonE kdf fEnc salt now store keyData name password)
        name password
      = some (postprocess [] (saveRecord keyData name now))
  ∧ dlookup f (postprocess [] (saveRecord keyData name now)) = some (.bytes w) := by
  have hf4 : f = ("key") ∨ f = ("iv") ∨ f = ("private_pem") ∨ f = ("public_pem") := by
    simpa [byteFieldNames] using hf
  have hrepl : replB64 f = f := by
    rcases hf4 with rfl | rfl | rfl | rfl <;> decide
  have hn1 : ("name" : String) ≠ f := by
    rcases hf4 with rfl | rfl | rfl | rfl <;> decide
  have hn2 : ("algorithm" : String) ≠ f := by
    rcases hf4 with rfl | rfl | rfl | rfl <;> decide
  have hn3 : ("created_at" : String) ≠ f := by
    rcases hf4 with rfl | rfl | rfl | rfl <;> decide
  have hnodupR : ((saveRecord keyData name now).map Prod.fst).Nodup := by
    unfold saveRecord
    apply serializeItems_nodup
    show (([("name"), ("algorithm"), ("created_at")] : List String)).Nodup
    decide
  have hlookR : dlookup f (saveRecord keyData name now) = some (.s (b64encode w)) := by
    unfold saveRecord
    exact serializeItems_lookup f w keyData _ hnodup hmem
  have hshadowR : ∀ kv ∈ saveRecord keyData name now, kv.1 ≠ f → replB64 kv.1 = f →
      kv.2 = SVal.s (b64encode w) := by
    intro kv hkv hne hrep
    rcases serializeItems_mem_src keyData _ kv hkv with hin | ⟨v, hvmem, hvser⟩
    · have hk3 : kv.1 = ("name") ∨ kv.1 = ("algorithm") ∨ kv.1 = ("created_at") := by
        simp only [List.mem_cons, List.not_mem_nil, or_false] at hin
        rcases hin with rfl | rfl | rfl
        · exact Or.inl rfl
        · exact Or.inr (Or.inl rfl)
        · exact Or.inr (Or.inr rfl)
      rcases hk3 with h | h | h
      · rw [h, show replB64 ("name") = ("name") from by decide] at hrep
        exact absurd hrep hn1
      · rw [h, show replB64 ("algorithm") = ("algorithm") from by decide] at hrep
        exact absurd hrep hn2
      · rw [h, show replB64 ("created_at") = ("created_at") from by decide] at hrep
        exact absurd hrep hn3
    · have hv2 : v = KVal.s (b64encode w) ∨ v = KVal.bytes w :=
        hshadow (kv.1, v) hvmem hne hrep
      rcases hv2 with rfl | rfl
      · simp only [serializeVal] at hvser
        exact (Option.some.inj hvser).symm
      · simp only [serializeVal] at hvser
        exact (Option.some.inj hvser).symm
  have hpost : dlookup f (postprocess [] (saveRecord keyData name now))
      = some (.bytes w) :=
    postprocess_recovers f w hf hrepl hw _ [] hnodupR hlookR hshadowR
  cases password with
  | none =>
      have hfind : dlookup (name ++ (".key"))
          (KeyManager.save_key jsonE kdf fEnc salt now store keyData name none)
          = some (jsonE (saveRecord keyData name now)) := by
        unfold KeyManager.save_key
        rw [hname]
        exact dlookup_dinsert_self _ _ _
      rw [load_key_of_found jsonD kdf fDec _ name none _ hfind]
      rw [loadParse_plain jsonD kdf fDec _ none (hMagicFree _), hJ]
      exact ⟨rfl, hpost⟩
  | some pw =>
      have hfind : dlookup (name ++ (".key"))
          (KeyManager.save_key jsonE kdf fEnc salt now store keyData name (some pw))
          = some (magic ++ salt
              ++ fEnc (kdf pw salt) (jsonE (saveRecord keyData name now))) := by
        unfold KeyManager.save_key
        rw [hname]
        exact dlookup_dinsert_self _ _ _
      rw [load_key_of_found jsonD kdf fDec _ name (some pw) _ hfind]
      rw [loadParse_encrypted_ok jsonD kdf fDec salt _ _ pw hsalt (hF _ _), hJ]
      exact ⟨rfl, hpost⟩

/-- C6 witness: a concrete byte field round-tripped through save/load
without a password, under trivial concrete instantiations of JSON and
Fernet — with a dictionary shaped like `generate_key`'s output, carrying
both the raw `key` bytes and the shadowing `key_b64` string companion. -/
theorem c6_save_load_roundtrip_witness :
    KeyManager.load_key
        (fun _ => some (saveRecord
          [(("key"), KVal.bytes [7]), (("key_b64"), KVal.s (b64encode [7]))] ("k1") []))
        (fun _ _ => ([] : Bytes)) (fun _ c => some c)
        (KeyManager.save_key (fun _ => [123]) (fun _ _ => ([] : Bytes)) (fun _ m => m)
          (List.replicate 16 0) [] []
          [(("key"), KVal.bytes [7]), (("key_b64"), KVal.s (b64encode [7]))] ("k1") none)
        ("k1") none
      = some (postprocess [] (saveRecord
          [(("key"), KVal.bytes [7]), (("key_b64"), KVal.s (b64encode [7]))] ("k1") []))
  ∧ dlookup ("key") (postprocess [] (saveRecord
        [(("key"), KVal.bytes [7]), (("key_b64"), KVal.s (b64encode [7]))] ("k1") []))
      = some (RVal.bytes [7]) :=
  c6_save_load_roundtrip (fun _ => [123])
    (fun _ => some (saveRecord
      [(("key"), KVal.bytes [7]), (("key_b64"), KVal.s (b64encode [7]))] ("k1") []))
    (fun _ _ => ([] : Bytes)) (fun _ m => m) (fun _ c => some c)
    (fun _ _ => rfl) (fun _ => by show List.take 10 [123] ≠ magic; decide)
    (List.replicate 16 0) [] (by decide) []
    [(("key"), KVal.bytes [7]), (("key_b64"), KVal.s (b64encode [7]))] ("k1") (by decide)
    none rfl ("key") (by decide) [7] (by decide) rfl (by decide) (by decide)

/-- C8 counterexample: the name is sanitized only on save.  A key saved
under the name `a b` lands in `a_b.key`; loading it back under the very
same original name `a b` fails (`none`), contradicting the claim that
every operation sanitizes the name. -/
theorem c8_counterexample :
    KeyManager.load_key (fun _ => some []) (fun _ _ => []) (fun _ _ => some [])
      (KeyManager.save_key (fun _ => [123]) (fun _ _ => []) (fun _ m => m)
        (List.replicate 16 0) [] [] [] ("a b") none)
      ("a b") none = none
  ∧ (KeyManager.delete_key
      (KeyManager.save_key (fun _ => [123]) (fun _ _ => []) (fun _ m => m)
        (List.replicate 16 0) [] [] [] ("a b") none)
      ("a b")).1 = false := by
  exact ⟨rfl, rfl⟩

theorem append_key_ne (a b : String) (h : a ≠ b) : a ++ (".key") ≠ b ++ (".key") := by
  intro hx
  apply h
  have hd : (a ++ (".key")).data = (b ++ (".key")).data := congrArg String.data hx
  have ha : (a ++ (".key")).data = a.data ++ (".key").data := by
    cases a; rfl
  have hb : (b ++ (".key")).data = b.data ++ (".key").data := by
    cases b; rfl
  rw [ha, hb] at hd
  have hdata : a.data = b.data := List.append_cancel_right hd
  cases a with
  | mk da =>
      cases b with
      | mk db =>
          simp only at hdata
          rw [hdata]

/-- C8 (amended): only `save_key` sanitizes the key name; `load_key` and
`delete_key` use the caller's name verbatim.  A freshly saved key can be
loaded and deleted under the *sanitized* name; when sanitization changes
the name (spaces or path separators present) the original name finds
nothing on load or delete. -/
theorem c8_sanitize_save_only
    (jsonE : Record → Bytes) (jsonD : Bytes → Option Record)
    (kdf : String → Bytes → Bytes)
    (fEnc : Bytes → Bytes → Bytes) (fDec : Bytes → Bytes → Option Bytes)
    (hMagicFree : ∀ r, (jsonE r).take 10 ≠ magic)
    (salt now : Bytes)
    (store : Store) (keyData : List (String × KVal)) (name : String)
    (hJ : jsonD (jsonE (saveRecord keyData name now))
        = some (saveRecord keyData name now))
    (hfresh : dlookup (name ++ (".key")) store = none) :
    (KeyManager.load_key jsonD kdf fDec
        (KeyManager.save_key jsonE kdf fEnc salt now store keyData name none)
        (sanitize name) none).isSome = true
  ∧ (KeyManager.delete_key
        (KeyManager.save_key jsonE kdf fEnc salt now store keyData name none)
        (sanitize name)).1 = true
  ∧ (sanitize name ≠ name →
      KeyManager.load_key jsonD kdf fDec
          (KeyManager.save_key jsonE kdf fEnc salt now store keyData name none)
          name none = none
      ∧ (KeyManager.delete_key
          (KeyManager.save_key jsonE kdf fEnc salt now store keyData name none)
          name).1 = false) := by
  have hfind : dlookup (sanitize name ++ (".key"))
      (KeyManager.save_key jsonE kdf fEnc salt now store keyData name none)
      = some (jsonE (saveRecord keyData name now)) := by
    unfold KeyManager.save_key
    exact dlookup_dinsert_self _ _ _
  refine ⟨?_, ?_, ?_⟩
  · rw [load_key_of_found jsonD kdf fDec _ (sanitize name) none _ hfind]
    rw [loadParse_plain jsonD kdf fDec _ none (hMagicFree _), hJ]
    rfl
  · unfold KeyManager.delete_key
    rw [hfind]
  · intro hne
    have hmiss : dlookup (name ++ (".key"))
        (KeyManager.save_key jsonE kdf fEnc salt now store keyData name none) = none := by
      unfold KeyManager.save_key
      rw [dlookup_dinsert_ne _ _ _ _ (append_key_ne _ _ hne)]
      exact hfresh
    constructor
    · exact load_key_of_missing jsonD kdf fDec _ name none hmiss
    · unfold KeyManager.delete_key
      rw [hmiss]

/-- C8 witness: the amended behavior at the concrete name `a b`
(sanitized to `a_b`). -/
theorem c8_sanitize_save_only_witness :
    (KeyManager.load_key (fun _ => some (saveRecord [] ("a b") []))
        (fun _ _ => ([] : Bytes)) (fun _ _ => (none : Option Bytes))
        (KeyManager.save_key (fun _ => [123]) (fun _ _ => ([] : Bytes)) (fun _ m => m)
          (List.replicate 16 0) [] [] [] ("a b") none)
        (sanitize ("a b")) none).isSome = true
  ∧ (KeyManager.delete_key
        (KeyManager.save_key (fun _ => [123]) (fun _ _ => ([] : Bytes)) (fun _ m => m)
          (List.replicate 16 0) [] [] [] ("a b") none)
        (sanitize ("a b"))).1 = true
  ∧ (sanitize ("a b") ≠ ("a b") →
      KeyManager.load_key (fun _ => some (saveRecord [] ("a b") []))
          (fun _ _ => ([] : Bytes)) (fun _ _ => (none : Option Bytes))
          (KeyManager.save_key (fun _ => [123]) (fun _ _ => ([] : Bytes)) (fun _ m => m)
            (List.replicate 16 0) [] [] [] ("a b") none)
          ("a b") none = none
      ∧ (KeyManager.delete_key
          (KeyManager.save_key (fun _ => [123]) (fun _ _ => ([] : Bytes)) (fun _ m => m)
            (List.replicate 16 0) [] [] [] ("a b") none)
          ("a b")).1 = false) :=
  c8_sanitize_save_only (fun _ => [123]) (fun _ => some (saveRecord [] ("a b") []))
    (fun _ _ => ([] : Bytes)) (fun _ m => m) (fun _ _ => (none : Option Bytes))
    (fun _ => by show List.take 10 [123] ≠ magic; decide)
    (List.replicate 16 0) [] [] [] ("a b") rfl rfl
